import Mathlib

/-!
SparkFun Alphanumeric Display driver (HT16K33).

A shallow embedding of `src/SparkFun_Alphanumeric_Display.cpp`.

* `uint8_t` / `uint16_t` values are natural numbers; every assignment that can
  leave the range of its C type is reduced `% 256` (or `% 65536`).
* `displayRAM` and `displayContent` are maps from an index to the byte stored
  there, so an indexed store is a pointwise update.
* The singly linked list `pCharDefList` is a `List CharDef`, head first.
* The I2C port is a log of the completed transmissions together with the
  acknowledge behaviour of the bus.
-/

namespace HT16K33

/-! ## Character map -/

def SFE_ALPHANUM_UNKNOWN_CHAR : Nat := 95

/-- The table `alphanumeric_segs[96]`, bit `i` of an entry being segment `'A' + i`. -/
def alphanumeric_segs : List Nat := [
  0b00000000000000, -- ' ' (space)
  0b00001000001000, -- '!'
  0b00001000000010, -- '"'
  0b1001101001110,  -- '#'
  0b1001101101101,  -- '$'
  0b10010000100100, -- '%'
  0b110011011001,   -- '&'
  0b1000000000,     -- '''
  0b111001,         -- '('
  0b1111,           -- ')'
  0b11111010000000, -- '*'
  0b1001101000000,  -- '+'
  0b10000000000000, -- ','
  0b101000000,      -- '-'
  0b00000000000000, -- '.' changed to blank
  0b10010000000000, -- '/'
  0b111111,         -- '0'
  0b10000000110,    -- '1'
  0b101011011,      -- '2'
  0b101001111,      -- '3'
  0b101100110,      -- '4'
  0b101101101,      -- '5'
  0b101111101,      -- '6'
  0b1010000000001,  -- '7'
  0b101111111,      -- '8'
  0b101100111,      -- '9'
  0b00000000000000, -- ':' changed to blank
  0b10001000000000, -- ';'
  0b110000000000,   -- '<'
  0b101001000,      -- '='
  0b01000010000000, -- '>'
  0b01000100000011, -- '?'
  0b00001100111011, -- '@'
  0b101110111,      -- 'A'
  0b1001100001111,  -- 'B'
  0b111001,         -- 'C'
  0b1001000001111,  -- 'D'
  0b101111001,      -- 'E'
  0b101110001,      -- 'F'
  0b100111101,      -- 'G'
  0b101110110,      -- 'H'
  0b1001000001001,  -- 'I'
  0b11110,          -- 'J'
  0b110001110000,   -- 'K'
  0b111000,         -- 'L'
  0b10010110110,    -- 'M'
  0b100010110110,   -- 'N'
  0b111111,         -- 'O'
  0b101110011,      -- 'P'
  0b100000111111,   -- 'Q'
  0b100101110011,   -- 'R'
  0b110001101,      -- 'S'
  0b1001000000001,  -- 'T'
  0b111110,         -- 'U'
  0b10010000110000, -- 'V'
  0b10100000110110, -- 'W'
  0b10110010000000, -- 'X'
  0b1010010000000,  -- 'Y'
  0b10010000001001, -- 'Z'
  0b111001,         -- '['
  0b100010000000,   -- '\'
  0b1111,           -- ']'
  0b10100000000000, -- '^'
  0b1000,           -- '_'
  0b10000000,       -- backquote
  0b101011111,      -- 'a'
  0b100001111000,   -- 'b'
  0b101011000,      -- 'c'
  0b10000100001110, -- 'd'
  0b1111001,        -- 'e'
  0b1110001,        -- 'f'
  0b110001111,      -- 'g'
  0b101110100,      -- 'h'
  0b1000000000000,  -- 'i'
  0b1110,           -- 'j'
  0b1111000000000,  -- 'k'
  0b1001000000000,  -- 'l'
  0b1000101010100,  -- 'm'
  0b100001010000,   -- 'n'
  0b101011100,      -- 'o'
  0b10001110001,    -- 'p'
  0b100101100011,   -- 'q'
  0b1010000,        -- 'r'
  0b110001101,      -- 's'
  0b1111000,        -- 't'
  0b11100,          -- 'u'
  0b10000000010000, -- 'v'
  0b10100000010100, -- 'w'
  0b10110010000000, -- 'x'
  0b1100001110,     -- 'y'
  0b10010000001001, -- 'z'
  0b10000011001001, -- opening brace
  0b1001000000000,  -- '|'
  0b110100001001,   -- closing brace
  0b00000101010010, -- '~'
  0b11111111111111  -- Unknown character (DEL or RUBOUT)
]

/-! ## Driver state -/

/-- One node of the list of user defined characters (`struct CharDef`, without
its `next` pointer). -/
structure CharDef where
  position : Nat
  segments : Nat
deriving DecidableEq, Repr

/-- The I2C port: `sent` holds the completed transmissions, oldest first, each
as the 7-bit address and the bytes written; `nack k address` tells whether the
transmission that follows `k` earlier ones, addressed to `address`, ends
without an acknowledge. -/
structure TwoWire where
  sent : List (Nat × List Nat)
  nack : Nat → Nat → Bool

/-- The member variables of `class HT16K33`. -/
structure Driver where
  _deviceAddressLeft : Nat
  _deviceAddressLeftCenter : Nat
  _deviceAddressRightCenter : Nat
  _deviceAddressRight : Nat
  numberOfDisplays : Nat
  digitPosition : Nat
  displayOnOff : Bool
  decimalOnOff : Bool
  colonOnOff : Bool
  blinkRate : Nat
  displayRAM : Nat → Nat
  displayContent : Nat → Nat
  pCharDefList : List CharDef
  _i2cPort : TwoWire

/-! ## Internal I2C abstraction -/

/-- One `beginTransmission(address)`, the `write` calls for `bytes`, and
`endTransmission()`; the result is `true` when `endTransmission` returned 0. -/
def TwoWire.transmit (w : TwoWire) (address : Nat) (bytes : List Nat) : Bool × TwoWire :=
  (!(w.nack w.sent.length address), { w with sent := w.sent ++ [(address, bytes)] })

def lookUpDisplayAddress (s : Driver) (displayNumber : Nat) : Nat :=
  match displayNumber with
  | 0 => s._deviceAddressLeft
  | 1 => s._deviceAddressLeftCenter
  | 2 => s._deviceAddressRightCenter
  | 3 => s._deviceAddressRight
  | _ => 0

/-- The four argument `writeRAM(address, reg, buff, buffSize)`; `buff` is the
list of the `buffSize` bytes read from the buffer. -/
def writeRAM (s : Driver) (address reg : Nat) (buff : List Nat) : Bool × Driver :=
  let r := s._i2cPort.transmit address (reg :: buff)
  (r.1, { s with _i2cPort := r.2 })

/-- One iteration of the loop of `updateDisplay` for display `i`. -/
def updateDisplayStep (acc : Bool × Driver) (i : Nat) : Bool × Driver :=
  let r := writeRAM acc.2 (lookUpDisplayAddress acc.2 i) 0
    ((List.range 16).map (fun j => acc.2.displayRAM (i * 16 + j)))
  (if r.1 = false then false else acc.1, r.2)

/-- Push `displayRAM` to the displays in 16 byte chunks. The 8-bit counter runs
over `0 .. numberOfDisplays - 1`. -/
def updateDisplay (s : Driver) : Bool × Driver :=
  (List.range s.numberOfDisplays).foldl updateDisplayStep (true, s)

/-! ## Light up functions -/

/-- The value of `com` in `illuminateSegment` after lines 591-598 (`uint8_t`). -/
def segmentCom (segment : Nat) : Nat :=
  let com := (segment + 256 - 65) % 256
  let com := if com > 6 then com - 7 else com
  let com := if segment = 73 then 0 else com
  let com := if segment = 72 then 1 else com
  com

/-- The byte address `adr` and the bit number `row` that `illuminateSegment`
computes for a segment letter and a digit (all variables are `uint8_t`). -/
def illuminateSegmentTarget (segment digit : Nat) : Nat × Nat :=
  let com := segmentCom segment
  let row := digit % 4
  let row := if segment > 71 then (row + 4) % 256 else row
  let offset := (digit / 4 * 16) % 256
  let adr := (com * 2 + offset) % 256
  let adr := if row > 7 then (adr + 1) % 256 else adr
  let row := if row > 7 then row - 8 else row
  (adr, row)

/-- Given a segment and a digit, set the matching bit of `displayRAM`. -/
def illuminateSegment (s : Driver) (segment digit : Nat) : Driver :=
  let adr := (illuminateSegmentTarget segment digit).1
  let dat := (1 <<< (illuminateSegmentTarget segment digit).2) % 256
  { s with displayRAM := fun a => if a = adr then (s.displayRAM a ||| dat) % 256 else s.displayRAM a }

/-- Given a binary set of segments and a digit, store this data into the RAM
array: the loop over the 14 segments. -/
def illuminateChar (s : Driver) (segmentsToTurnOn digit : Nat) : Driver :=
  (List.range 14).foldl
    (fun acc i => if (segmentsToTurnOn >>> i) &&& 1 ≠ 0
      then illuminateSegment acc ((65 + i) % 256) digit else acc) s

/-! ## Decimal point and colon -/

/-- Set or clear the decimal flag of a display; the RAM byte `3 + 16 * displayNumber`
is OR-ed with 1 (on) or with 0 (off). -/
def setDecimalOnOff (s : Driver) (displayNumber : Nat) (turnOnDecimal : Bool) : Bool × Driver :=
  let adr := 0x03
  let dat := if turnOnDecimal = true then 0x01 else 0x00
  let s1 := { s with decimalOnOff := turnOnDecimal }
  let s2 := { s1 with displayRAM := fun a =>
    if a = adr + displayNumber * 16 then (s1.displayRAM a ||| dat) % 256 else s1.displayRAM a }
  updateDisplay s2

def decimalOnSingle (s : Driver) (displayNumber : Nat) : Bool × Driver :=
  setDecimalOnOff s displayNumber true

def decimalOffSingle (s : Driver) (displayNumber : Nat) : Bool × Driver :=
  setDecimalOnOff s displayNumber false

/-- Set or clear the colon flag of a display; the RAM byte `1 + 16 * displayNumber`
is OR-ed with 1 (on) or with 0 (off). -/
def setColonOnOff (s : Driver) (displayNumber : Nat) (turnOnColon : Bool) : Bool × Driver :=
  let adr := 0x01
  let dat := if turnOnColon = true then 0x01 else 0x00
  let s1 := { s with colonOnOff := turnOnColon }
  let s2 := { s1 with displayRAM := fun a =>
    if a = adr + displayNumber * 16 then (s1.displayRAM a ||| dat) % 256 else s1.displayRAM a }
  updateDisplay s2

def colonOnSingle (s : Driver) (displayNumber : Nat) : Bool × Driver :=
  setColonOnOff s displayNumber true

def colonOffSingle (s : Driver) (displayNumber : Nat) : Bool × Driver :=
  setColonOnOff s displayNumber false

/-! ## Character definitions -/

/-- The search loop of `getSegmentsToTurnOn`: the first node whose `position`
is `charPos`, if there is one. -/
def findCharDef : List CharDef → Nat → Option CharDef
  | [], _ => none
  | d :: next, charPos => if d.position ≠ charPos then findCharDef next charPos else some d

/-- Get the character map from the definition list or the default table. -/
def getSegmentsToTurnOn (s : Driver) (charPos : Nat) : Nat :=
  match findCharDef s.pCharDefList charPos with
  | some d => d.segments
  | none => alphanumeric_segs.getD charPos 0

/-- Update the list to define a new segments display for a particular
character: the new node goes at the end of the list. -/
def defineChar (s : Driver) (displayChar segmentsToTurnOn : Nat) : Bool × Driver :=
  if 33 ≤ displayChar ∧ displayChar ≤ 126 then
    let characterPosition := (displayChar - 33 + 1) % 65536
    let pNewCharDef : CharDef :=
      { position := characterPosition, segments := segmentsToTurnOn &&& 0x3FFF }
    (true, { s with pCharDefList := s.pCharDefList ++ [pNewCharDef] })
  else
    (false, s)

/-! ## Printing -/

/-- The value of `characterPosition` in `printChar` after the range checks
(lines 646-655): 65532 marks an unknown character. -/
def characterPosition (displayChar : Nat) : Nat :=
  if displayChar = 32 then 0
  else if 33 ≤ displayChar ∧ displayChar ≤ 126 then (displayChar - 33 + 1) % 65536
  else 65532

/-- The table index `printChar` passes to `getSegmentsToTurnOn` (line 670). -/
def tableIndex (displayChar : Nat) : Nat :=
  if characterPosition displayChar = 65532 then SFE_ALPHANUM_UNKNOWN_CHAR
  else characterPosition displayChar

/-- Show a character on the display. -/
def printChar (s : Driver) (displayChar digit : Nat) : Driver :=
  let dispNum := (s.digitPosition / 4) % 256
  let s1 := if characterPosition displayChar = 14 then (decimalOnSingle s dispNum).2 else s
  let s2 := if characterPosition displayChar = 26 then (colonOnSingle s1 dispNum).2 else s1
  let segmentsToTurnOn := getSegmentsToTurnOn s2 (tableIndex displayChar % 256)
  illuminateChar s2 segmentsToTurnOn digit

/-- The loop `for (i = 0; i < 16 * numberOfDisplays; i++) displayRAM[i] = 0;` of
`clear` and of `write(buffer, size)`; with at most four displays the 8-bit
counter does not wrap. -/
def zeroDisplayRAM (s : Driver) : Driver :=
  (List.range (16 * s.numberOfDisplays)).foldl
    (fun acc i => { acc with displayRAM := fun a => if a = i then 0 else acc.displayRAM a }) s

def clear (s : Driver) : Bool × Driver :=
  updateDisplay { zeroDisplayRAM s with digitPosition := 0 }

/-- The method `write(uint8_t b)`. In the second branch `digitPosition++` is
complete before the body of `printChar` runs. The result is the `bool` of
`updateDisplay` converted to `size_t`. -/
def write (s : Driver) (b : Nat) : Nat × Driver :=
  let s1 :=
    if b = 46 ∨ b = 58 then printChar s b 0
    else
      let digit := s.digitPosition
      let s2 := printChar { s with digitPosition := (s.digitPosition + 1) % 256 } b digit
      { s2 with digitPosition := s2.digitPosition % (s2.numberOfDisplays * 4) }
  let r := updateDisplay s1
  (if r.1 = true then 1 else 0, r.2)

/-- The body of the `while (size--)` loop of `write(buffer, size)` for one byte. -/
def writeBufferStep (s : Driver) (buff : Nat) : Driver :=
  if buff = 46 then printChar s 46 0
  else if buff = 58 then printChar s 58 0
  else
    let s1 := printChar s buff s.digitPosition
    let s2 := { s1 with displayContent := fun a =>
      if a = s1.digitPosition then buff else s1.displayContent a }
    let s3 := { s2 with digitPosition := (s2.digitPosition + 1) % 256 }
    { s3 with digitPosition := s3.digitPosition % (s3.numberOfDisplays * 4) }

/-- The method `write(const uint8_t *buffer, size_t size)`; `buffer` is the list
of the `size` bytes the pointer addresses. -/
def writeBuffer (s : Driver) (buffer : List Nat) : Nat × Driver :=
  let n := buffer.length
  let s1 := { zeroDisplayRAM s with digitPosition := 0 }
  let s2 := buffer.foldl writeBufferStep s1
  (n, (updateDisplay s2).2)

/-! ## Reading a digit back -/

/-- The glyph of a byte: the mask `printChar` obtains for it. -/
def glyph (s : Driver) (c : Nat) : Nat :=
  getSegmentsToTurnOn s (tableIndex c % 256)

/-- The decoded mask of a digit: bit `i` is set exactly when the RAM bit that
`illuminateSegment ('A' + i) digit` addresses is set. -/
def decodedMask (ram : Nat → Nat) (digit : Nat) : Nat :=
  (List.range 14).foldl
    (fun acc i =>
      if (ram (illuminateSegmentTarget (65 + i) digit).1).testBit
          (illuminateSegmentTarget (65 + i) digit).2
      then acc ||| (1 <<< i) else acc) 0

/-- A sample state: one display at address 0x70, the other three positions
unused (0xFF), cursor 0, RAM image and shadow zeroed, no user defined
characters, and a bus that acknowledges every transmission. -/
def fresh : Driver :=
  { _deviceAddressLeft := 0x70, _deviceAddressLeftCenter := 0xFF,
    _deviceAddressRightCenter := 0xFF, _deviceAddressRight := 0xFF,
    numberOfDisplays := 1, digitPosition := 0,
    displayOnOff := false, decimalOnOff := false, colonOnOff := false, blinkRate := 0,
    displayRAM := fun _ => 0, displayContent := fun _ => 0,
    pCharDefList := [], _i2cPort := { sent := [], nack := fun _ _ => false } }

/-- A finite sequence of `defineChar` calls, one per (character, mask) pair. -/
def defineChars (s : Driver) (defs : List (Nat × Nat)) : Driver :=
  defs.foldl (fun acc p => (defineChar acc p.1 p.2).2) s

/-- Every entry of the override list is for a table index in 1..94 and holds a
mask of at most 14 bits. -/
def OverridesInRange (s : Driver) : Prop :=
  ∀ d ∈ s.pCharDefList, 1 ≤ d.position ∧ d.position ≤ 94 ∧ d.segments < 16384

/-- What the rendering of RAM byte `a` depends on: the number of displays, the
cursor, the override list and the byte itself. -/
def view (a : Nat) (s : Driver) : Nat × Nat × List CharDef × Nat :=
  (s.numberOfDisplays, s.digitPosition, s.pCharDefList, s.displayRAM a)

/-! ## Shifting the shadow -/

/-- The shadow array `displayContent` during a shift, together with the indices
of it that were read or written so far, in order. -/
structure ShadowRun where
  displayContent : Nat → Nat
  touched : List Nat

/-- One pass of the first loop of `shiftLeft` (`int x`); the flag records that
the loop was left through `break`. -/
def shiftLeftCopyStep (numberOfDisplays shiftAmt : Nat) (acc : Bool × ShadowRun) (x : Nat) :
    Bool × ShadowRun :=
  if acc.1 = true then acc
  else if x + shiftAmt > 4 * numberOfDisplays then (true, acc.2)
  else (false,
    { displayContent := fun a =>
        if a = x then acc.2.displayContent (x + shiftAmt) else acc.2.displayContent a,
      touched := acc.2.touched ++ [x + shiftAmt, x] })

/-- One pass of the second loop of `shiftLeft` (`int x`): the test
`4 * numberOfDisplays - 1 - x < 0` is made on integers. -/
def shiftLeftClearStep (numberOfDisplays : Nat) (acc : Bool × ShadowRun) (x : Nat) :
    Bool × ShadowRun :=
  if acc.1 = true then acc
  else if (4 * numberOfDisplays : Int) - 1 - (x : Int) < 0 then (true, acc.2)
  else (false,
    { displayContent := fun a =>
        if a = 4 * numberOfDisplays - 1 - x then 32 else acc.2.displayContent a,
      touched := acc.2.touched ++ [4 * numberOfDisplays - 1 - x] })

/-- The two loops of `shiftLeft`: the shadow array as it is handed to `print`. -/
def shiftLeftShadow (numberOfDisplays shiftAmt : Nat) (content : Nat → Nat) : ShadowRun :=
  let r1 := (List.range (4 * numberOfDisplays)).foldl
    (shiftLeftCopyStep numberOfDisplays shiftAmt) (false, { displayContent := content, touched := [] })
  let r2 := (List.range shiftAmt).foldl (shiftLeftClearStep numberOfDisplays) (false, r1.2)
  r2.2

/-- The first loop of `shiftRight`, `for (uint8_t x = ...; x >= shiftAmt; x--)`,
run for at most `fuel` passes from the counter value `x`. The flag is `true`
when the loop condition failed, `false` when the passes ran out first. -/
def shiftRightCopy (shiftAmt : Nat) : Nat → Nat → ShadowRun → Bool × ShadowRun
  | 0, x, r => (decide (¬ x ≥ shiftAmt), r)
  | fuel + 1, x, r =>
    if x ≥ shiftAmt then
      shiftRightCopy shiftAmt fuel ((x + 255) % 256)
        { displayContent := fun a =>
            if a = x then r.displayContent (x - shiftAmt) else r.displayContent a,
          touched := r.touched ++ [x - shiftAmt, x] }
    else (true, r)

/-- One pass of the second loop of `shiftRight` (`uint8_t x`, below `shiftAmt`,
so the increment does not wrap). -/
def shiftRightClearStep (numberOfDisplays shiftAmt : Nat) (acc : Bool × ShadowRun) (x : Nat) :
    Bool × ShadowRun :=
  if acc.1 = true then acc
  else if x + shiftAmt > 4 * numberOfDisplays then (true, acc.2)
  else (false,
    { displayContent := fun a => if a = 0 + x then 32 else acc.2.displayContent a,
      touched := acc.2.touched ++ [0 + x] })

/-- The two loops of `shiftRight`: the shadow array as it is handed to `print`,
or `none` when the first loop does not end. The counter starts at
`4 * numberOfDisplays - shiftAmt` reduced to 8 bits; a loop over an 8-bit counter
that ends at all ends within 256 passes. -/
def shiftRightShadow (numberOfDisplays shiftAmt : Nat) (content : Nat → Nat) :
    Option ShadowRun :=
  let r1 := shiftRightCopy shiftAmt 256 ((4 * numberOfDisplays + 256 - shiftAmt) % 256)
    { displayContent := content, touched := [] }
  if r1.1 = true then
    some ((List.range shiftAmt).foldl
      (shiftRightClearStep numberOfDisplays shiftAmt) (false, r1.2)).2
  else none

/-- The bytes of the C string in the 17 byte array `displayContent`, as
`strlen` delimits them (`begin` stores the terminator at index 16). -/
def cString (content : Nat → Nat) : List Nat :=
  ((List.range 17).map content).takeWhile (fun c => decide (c ≠ 0))

/-- What `print(displayContent)` does: `write(buffer, size)` on the string in
the shadow array. The buffer is the shadow array itself; a store into it at the
cursor never lies ahead of the byte being read, so the bytes read are those of
the string at the call. The result is the byte count. -/
def printDisplayContent (s : Driver) : Nat × Driver :=
  writeBuffer s (cString s.displayContent)

/-- Shift the display content to the left; the result is the byte count of
`print` converted to `bool`. -/
def shiftLeft (s : Driver) (shiftAmt : Nat) : Bool × Driver :=
  let r := shiftLeftShadow s.numberOfDisplays shiftAmt s.displayContent
  let p := printDisplayContent { s with displayContent := r.displayContent }
  (decide (p.1 ≠ 0), p.2)

/-- Shift the display content to the right; `none` when the first loop does
not end. -/
def shiftRight (s : Driver) (shiftAmt : Nat) : Option (Bool × Driver) :=
  match shiftRightShadow s.numberOfDisplays shiftAmt s.displayContent with
  | none => none
  | some r =>
    let p := printDisplayContent { s with displayContent := r.displayContent }
    some (decide (p.1 ≠ 0), p.2)

/-- A shadow array holding the given bytes from index 0 and 0 elsewhere. -/
def shadowOf (bytes : List Nat) : Nat → Nat :=
  fun a => bytes.getD a 0

/-! ## Brightness -/

/-- The two argument `writeRAM(address, dataToWrite)`: a single command byte. -/
def writeRAMByte (s : Driver) (address dataToWrite : Nat) : Bool × Driver :=
  writeRAM s address dataToWrite []

/-- Set the brightness of one display; `ALPHA_CMD_DIMMING_SETUP` is the command
code of the header file, taken as a parameter. -/
def setBrightnessSingle (ALPHA_CMD_DIMMING_SETUP : Nat) (s : Driver)
    (displayNumber duty : Nat) : Bool × Driver :=
  let duty := if duty > 15 then 15 else duty
  let dataToWrite := (ALPHA_CMD_DIMMING_SETUP ||| duty) % 256
  writeRAMByte s (lookUpDisplayAddress s displayNumber) dataToWrite

/-- One pass of the loop of `setBrightness` for display `i`. -/
def setBrightnessStep (ALPHA_CMD_DIMMING_SETUP duty : Nat) (acc : Bool × Driver) (i : Nat) :
    Bool × Driver :=
  let r := setBrightnessSingle ALPHA_CMD_DIMMING_SETUP acc.2 i duty
  (if r.1 = false then false else acc.1, r.2)

/-- Set the brightness of every display of the chain. -/
def setBrightness (ALPHA_CMD_DIMMING_SETUP : Nat) (s : Driver) (duty : Nat) : Bool × Driver :=
  (List.range s.numberOfDisplays).foldl
    (setBrightnessStep ALPHA_CMD_DIMMING_SETUP duty) (true, s)

/-- A sample chain of four displays at the addresses 0x70 .. 0x73 on a bus
where the display at 0x72 never acknowledges. -/
def fourChips : Driver :=
  { fresh with
    _deviceAddressLeftCenter := 0x71, _deviceAddressRightCenter := 0x72,
    _deviceAddressRight := 0x73, numberOfDisplays := 4,
    _i2cPort := { sent := [], nack := fun _ address => decide (address = 0x72) } }

/-! ## Rows and stores -/

/-- The value of `row` in `illuminateSegment` when it is compared with 7
(lines 600-602). -/
def segmentRow (segment digit : Nat) : Nat :=
  let row := digit % 4
  if segment > 71 then (row + 4) % 256 else row

/-- A sequence of stores `displayContent[position] = byte`, applied in order. -/
def applyStores (content : Nat → Nat) (stores : List (Nat × Nat)) : Nat → Nat :=
  stores.foldl (fun c p => fun a => if a = p.1 then p.2 else c a) content

/-! ## Chain-wide decimal, colon and system clock -/

/-- One pass of the loop of `decimalOff` for display `i`. -/
def decimalOffStep (acc : Bool × Driver) (i : Nat) : Bool × Driver :=
  let r := decimalOffSingle acc.2 i
  (if r.1 = false then false else acc.1, r.2)

/-- Turn the decimal off on every display of the chain. -/
def decimalOff (s : Driver) : Bool × Driver :=
  (List.range s.numberOfDisplays).foldl decimalOffStep (true, { s with decimalOnOff := false })

/-- One pass of the loop of `colonOff` for display `i`. -/
def colonOffStep (acc : Bool × Driver) (i : Nat) : Bool × Driver :=
  let r := colonOffSingle acc.2 i
  (if r.1 = false then false else acc.1, r.2)

/-- Turn the colon off on every display of the chain. -/
def colonOff (s : Driver) : Bool × Driver :=
  (List.range s.numberOfDisplays).foldl colonOffStep (true, { s with colonOnOff := false })

/-- Enable the system clock of one display; `ALPHA_CMD_SYSTEM_SETUP` is the
command code of the header file, taken as a parameter. The `delay(1)` after the
transmission has no effect on the state. -/
def enableSystemClockSingle (ALPHA_CMD_SYSTEM_SETUP : Nat) (s : Driver) (displayNumber : Nat) :
    Bool × Driver :=
  let dataToWrite := (ALPHA_CMD_SYSTEM_SETUP ||| 1) % 256
  writeRAMByte s (lookUpDisplayAddress s displayNumber) dataToWrite

/-- Put one display in standby mode. -/
def disableSystemClockSingle (ALPHA_CMD_SYSTEM_SETUP : Nat) (s : Driver) (displayNumber : Nat) :
    Bool × Driver :=
  let dataToWrite := (ALPHA_CMD_SYSTEM_SETUP ||| 0) % 256
  writeRAMByte s (lookUpDisplayAddress s displayNumber) dataToWrite

/-- One pass of the loop of `enableSystemClock` for display `i`. -/
def enableSystemClockStep (ALPHA_CMD_SYSTEM_SETUP : Nat) (acc : Bool × Driver) (i : Nat) :
    Bool × Driver :=
  let r := enableSystemClockSingle ALPHA_CMD_SYSTEM_SETUP acc.2 i
  (if r.1 = false then false else acc.1, r.2)

def enableSystemClock (ALPHA_CMD_SYSTEM_SETUP : Nat) (s : Driver) : Bool × Driver :=
  (List.range s.numberOfDisplays).foldl (enableSystemClockStep ALPHA_CMD_SYSTEM_SETUP) (true, s)

/-- One pass of the loop of `disableSystemClock` for display `i`: the source
calls `enableSystemClockSingle(i)` here (line 297). -/
def disableSystemClockStep (ALPHA_CMD_SYSTEM_SETUP : Nat) (acc : Bool × Driver) (i : Nat) :
    Bool × Driver :=
  let r := enableSystemClockSingle ALPHA_CMD_SYSTEM_SETUP acc.2 i
  (if r.1 = false then false else acc.1, r.2)

def disableSystemClock (ALPHA_CMD_SYSTEM_SETUP : Nat) (s : Driver) : Bool × Driver :=
  (List.range s.numberOfDisplays).foldl (disableSystemClockStep ALPHA_CMD_SYSTEM_SETUP) (true, s)

/-- One pass of `standbyEachDisplay` for display `i`. -/
def standbyEachDisplayStep (ALPHA_CMD_SYSTEM_SETUP : Nat) (acc : Bool × Driver) (i : Nat) :
    Bool × Driver :=
  let r := disableSystemClockSingle ALPHA_CMD_SYSTEM_SETUP acc.2 i
  (if r.1 = false then false else acc.1, r.2)

/-- The reference for `disableSystemClock`: `disableSystemClockSingle` called
on the displays `0 .. numberOfDisplays - 1` in order. Not a function of the
source; it is what the chain-wide call is compared with. -/
def standbyEachDisplay (ALPHA_CMD_SYSTEM_SETUP : Nat) (s : Driver) : Bool × Driver :=
  (List.range s.numberOfDisplays).foldl (standbyEachDisplayStep ALPHA_CMD_SYSTEM_SETUP) (true, s)

/-- A sample state: the sample driver with the decimal bit (byte 3, bit 0) and
the colon bit (byte 1, bit 0) of display 0 set. -/
def statusLit : Driver :=
  { fresh with displayRAM := fun a => if a = 3 ∨ a = 1 then 1 else 0 }

/-! ## Auxiliary facts -/

theorem or_byte {x y : Nat} (hx : x < 256) (hy : y < 256) : (x ||| y) % 256 = x ||| y :=
  Nat.mod_eq_of_lt (Nat.or_lt_two_pow (n := 8) hx hy)

/-- Closed form of the address computation for the fourteen segment letters. -/
theorem target_closed (i digit : Nat) (hi : i < 14) (hd : digit < 64) :
    illuminateSegmentTarget (65 + i) digit
      = (2 * segmentCom (65 + i) + 16 * (digit / 4), digit % 4 + (if i < 7 then 0 else 4)) := by
  have h4 : digit % 4 < 4 := Nat.mod_lt _ (by decide)
  have hq : digit / 4 < 16 := by omega
  interval_cases i <;> simp [illuminateSegmentTarget, segmentCom] <;> split_ifs <;> omega

theorem segmentCom_le (i : Nat) (hi : i < 14) : segmentCom (65 + i) ≤ 6 := by
  interval_cases i <;> decide

/-! ## Segment addressing -/

/-- C1: for a segment letter in 'A'..'N' and a digit below 16, `illuminateSegment`
ORs one bit into one RAM byte and leaves every other byte and every other
member unchanged. The byte is `16 * (digit / 4) + 2 * common`, the bit is
`digit % 4` for 'A'..'G' and `digit % 4 + 4` for 'H'..'N'; `common` is
`segment - 'A'` for 'A'..'G' and `segment - 'A' - 7` for 'J'..'N', and at most 6
for every letter; the block offset is 0, 16, 32, 48 for the four groups of
digits. -/
theorem illuminateSegment_sets_one_bit (s : Driver) (segment digit : Nat)
    (hseg : 65 ≤ segment ∧ segment ≤ 78) (hd : digit < 16)
    (hram : ∀ a, s.displayRAM a < 256) :
    segmentCom segment ≤ 6 ∧
    (segment ≤ 71 → segmentCom segment = segment - 65) ∧
    (74 ≤ segment → segmentCom segment = segment - 65 - 7) ∧
    illuminateSegment s segment digit =
      { s with displayRAM := fun a =>
          if a = 16 * (digit / 4) + 2 * segmentCom segment
          then s.displayRAM a |||
            (if segment ≤ 71 then 1 <<< (digit % 4) else 1 <<< (digit % 4 + 4))
          else s.displayRAM a } ∧
    (illuminateSegmentTarget segment digit).1 = 2 * segmentCom segment +
      (if digit < 4 then 0 else if digit < 8 then 16 else if digit < 12 then 32 else 48) := by
  obtain ⟨i, rfl⟩ : ∃ i, segment = 65 + i := ⟨segment - 65, by omega⟩
  have hi : i < 14 := by omega
  have ht := target_closed i digit hi (by omega)
  refine ⟨segmentCom_le i hi, ?_, ?_, ?_, ?_⟩
  · intro h
    interval_cases i <;> first | rfl | omega
  · intro h
    interval_cases i <;> first | rfl | omega
  · have h4 : digit % 4 < 4 := Nat.mod_lt _ (by decide)
    have hdat : (1 <<< (digit % 4 + (if i < 7 then 0 else 4))) % 256
        = if 65 + i ≤ 71 then 1 <<< (digit % 4) else 1 <<< (digit % 4 + 4) := by
      generalize digit % 4 = r at h4
      interval_cases r <;> interval_cases i <;> rfl
    have hlt : (if 65 + i ≤ 71 then 1 <<< (digit % 4) else 1 <<< (digit % 4 + 4)) < 256 := by
      rw [← hdat]; exact Nat.mod_lt _ (by decide)
    unfold illuminateSegment
    rw [ht]
    simp only [hdat]
    congr 1
    funext a
    by_cases ha : a = 2 * segmentCom (65 + i) + 16 * (digit / 4)
    · have ha2 : a = 16 * (digit / 4) + 2 * segmentCom (65 + i) := by omega
      rw [if_pos ha, if_pos ha2, or_byte (hram a) hlt]
    · have ha2 : ¬ a = 16 * (digit / 4) + 2 * segmentCom (65 + i) := by omega
      rw [if_neg ha, if_neg ha2]
  · rw [ht]
    simp only
    split_ifs <;> omega

/-- C1, an instance: segment 'K' of digit 9 on a fresh driver. -/
theorem illuminateSegment_sets_one_bit_witness :
    segmentCom 75 ≤ 6 ∧
    (75 ≤ 71 → segmentCom 75 = 75 - 65) ∧
    (74 ≤ 75 → segmentCom 75 = 75 - 65 - 7) ∧
    illuminateSegment fresh 75 9 =
      { fresh with displayRAM := fun a =>
          if a = 16 * (9 / 4) + 2 * segmentCom 75
          then fresh.displayRAM a ||| (if 75 ≤ 71 then 1 <<< (9 % 4) else 1 <<< (9 % 4 + 4))
          else fresh.displayRAM a } ∧
    (illuminateSegmentTarget 75 9).1 = 2 * segmentCom 75 +
      (if 9 < 4 then 0 else if 9 < 8 then 16 else if 9 < 12 then 32 else 48) :=
  illuminateSegment_sets_one_bit fresh 75 9 (by decide) (by decide)
    (fun _ => (by decide : (0 : Nat) < 256))

/-- C2 fails as stated: for digit 0 the byte offset used for 'H' is 2, not 0,
and the byte offset used for 'I' is 0, not 2; the common index of 'H' is 1 and
that of 'I' is 0. -/
theorem special_letters_counterexample :
    segmentCom 72 ≠ 0 ∧ segmentCom 73 ≠ 1 ∧
    (illuminateSegmentTarget 72 0).1 ≠ 16 * (0 / 4) + 0 ∧
    (illuminateSegmentTarget 73 0).1 ≠ 16 * (0 / 4) + 2 := by
  decide

/-- C2 as amended: 'H' resolves to common index 1 and 'I' to common index 0, so
for every digit below 16 the byte offset used for 'H' is `16 * (digit / 4) + 2`
and the byte offset used for 'I' is `16 * (digit / 4) + 0`. -/
theorem special_letters_swapped (digit : Nat) (hd : digit < 16) :
    segmentCom 72 = 1 ∧ segmentCom 73 = 0 ∧
    (illuminateSegmentTarget 72 digit).1 = 16 * (digit / 4) + 2 ∧
    (illuminateSegmentTarget 73 digit).1 = 16 * (digit / 4) + 0 := by
  have h72 := target_closed 7 digit (by decide) (by omega)
  have h73 := target_closed 8 digit (by decide) (by omega)
  have c72 : segmentCom 72 = 1 := by decide
  have c73 : segmentCom 73 = 0 := by decide
  simp only [Nat.reduceAdd] at h72 h73
  refine ⟨c72, c73, ?_, ?_⟩
  · rw [h72, c72]; simp only; omega
  · rw [h73, c73]; simp only; omega

/-- C2 as amended, an instance: digit 6. -/
theorem special_letters_swapped_witness :
    segmentCom 72 = 1 ∧ segmentCom 73 = 0 ∧
    (illuminateSegmentTarget 72 6).1 = 16 * (6 / 4) + 2 ∧
    (illuminateSegmentTarget 73 6).1 = 16 * (6 / 4) + 0 :=
  special_letters_swapped 6 (by decide)

/-! ## Glyph table and overrides -/

theorem findCharDef_eq_none {l : List CharDef} {p : Nat} :
    findCharDef l p = none ↔ ∀ d ∈ l, d.position ≠ p := by
  induction l with
  | nil => simp [findCharDef]
  | cons d l ih =>
    by_cases h : d.position = p
    · simp [findCharDef, h]
    · simp [findCharDef, h, ih]

theorem findCharDef_append (l : List CharDef) (x : CharDef) (p : Nat) :
    findCharDef (l ++ [x]) p =
      match findCharDef l p with
      | some d => some d
      | none => if x.position = p then some x else none := by
  induction l with
  | nil =>
    by_cases h : x.position = p <;> simp [findCharDef, h]
  | cons d l ih =>
    by_cases h : d.position = p
    · simp [findCharDef, h]
    · simp [findCharDef, h, ih]

theorem tableIndex_printable {c : Nat} (h : 33 ≤ c ∧ c ≤ 126) : tableIndex c = c - 32 := by
  have h1 : ¬ c = 32 := by omega
  have h2 : (c - 33 + 1) % 65536 = c - 32 := by omega
  have h3 : ¬ c - 32 = 65532 := by omega
  simp [tableIndex, characterPosition, h1, h, h2, h3]

theorem tableIndex_space : tableIndex 32 = 0 := by decide

theorem tableIndex_unknown {c : Nat} (h : c < 32 ∨ 126 < c) : tableIndex c = 95 := by
  have h1 : ¬ c = 32 := by omega
  have h2 : ¬ (33 ≤ c ∧ c ≤ 126) := by omega
  simp [tableIndex, characterPosition, h1, h2, SFE_ALPHANUM_UNKNOWN_CHAR]

theorem defineChar_list (s : Driver) (c m : Nat) :
    (defineChar s c m).2.pCharDefList =
      if 33 ≤ c ∧ c ≤ 126 then s.pCharDefList ++ [⟨c - 32, m &&& 0x3FFF⟩]
      else s.pCharDefList := by
  unfold defineChar
  split_ifs with h
  · have h2 : (c - 33 + 1) % 65536 = c - 32 := by omega
    simp [h2]
  · rfl

theorem defineChar_inRange (s : Driver) (c m : Nat) (h : OverridesInRange s) :
    OverridesInRange (defineChar s c m).2 := by
  intro d hd
  rw [defineChar_list] at hd
  split_ifs at hd with hc
  · rcases List.mem_append.1 hd with hd | hd
    · exact h d hd
    · have hd2 : d = ⟨c - 32, m &&& 0x3FFF⟩ := by simpa using hd
      subst hd2
      refine ⟨by show 1 ≤ c - 32; omega, by show c - 32 ≤ 94; omega, ?_⟩
      exact Nat.lt_of_le_of_lt Nat.and_le_right (by decide)
  · exact h d hd

theorem defineChars_inRange (defs : List (Nat × Nat)) (s : Driver) (h : OverridesInRange s) :
    OverridesInRange (defineChars s defs) := by
  induction defs generalizing s with
  | nil => exact h
  | cons p defs ih => exact ih _ (defineChar_inRange s p.1 p.2 h)

theorem defineChars_extends (defs : List (Nat × Nat)) (s : Driver) :
    s.pCharDefList <+: (defineChars s defs).pCharDefList := by
  induction defs generalizing s with
  | nil => exact List.prefix_refl _
  | cons p defs ih =>
    refine List.IsPrefix.trans ?_ (ih (defineChar s p.1 p.2).2)
    rw [defineChar_list]
    split_ifs
    · exact List.prefix_append _ _
    · exact List.prefix_refl _

theorem findCharDef_extends {l l2 : List CharDef} {p : Nat} {d : CharDef}
    (hp : l <+: l2) (h : findCharDef l p = some d) : findCharDef l2 p = some d := by
  obtain ⟨t, rfl⟩ := hp
  induction l with
  | nil => simp [findCharDef] at h
  | cons e l ih =>
    by_cases he : e.position = p
    · simpa [findCharDef, he] using h
    · simp only [findCharDef, ne_eq, he, not_false_eq_true, if_true] at h
      simpa [findCharDef, he] using ih h

/-- C3: for every byte value, `printChar` resolves an index inside the table:
0 for a space, `c - 0x20` (1..94) for 0x21..0x7E and the sentinel 95 otherwise.
In every state reached from an empty override list by `defineChar` calls the
mask looked up is 0 for a space and 0x3FFF for every out-of-range byte, and a
printable byte with no override for its index yields its built-in entry. -/
theorem printChar_index_total (s0 : Driver) (defs : List (Nat × Nat)) (c : Nat)
    (h0 : s0.pCharDefList = []) (hc : c < 256) :
    tableIndex c < alphanumeric_segs.length ∧
    (c = 32 → tableIndex c = 0 ∧ glyph (defineChars s0 defs) c = 0) ∧
    (33 ≤ c ∧ c ≤ 126 → tableIndex c = c - 32 ∧ 1 ≤ tableIndex c ∧ tableIndex c ≤ 94) ∧
    (c < 32 ∨ 126 < c → tableIndex c = 95 ∧ glyph (defineChars s0 defs) c = 0x3FFF) ∧
    (33 ≤ c ∧ c ≤ 126 → (∀ d ∈ (defineChars s0 defs).pCharDefList, d.position ≠ c - 32) →
      glyph (defineChars s0 defs) c = alphanumeric_segs.getD (c - 32) 0) := by
  have hr : OverridesInRange (defineChars s0 defs) :=
    defineChars_inRange defs s0 (by intro d hd; rw [h0] at hd; cases hd)
  have hnone : ∀ p, (p = 0 ∨ p = 95) →
      findCharDef (defineChars s0 defs).pCharDefList p = none := by
    intro p hp
    rw [findCharDef_eq_none]
    intro d hd
    have := hr d hd
    omega
  refine ⟨?_, ?_, ?_, ?_, ?_⟩
  · by_cases h1 : c = 32
    · subst h1; decide
    · by_cases h2 : 33 ≤ c ∧ c ≤ 126
      · rw [tableIndex_printable h2]
        have : alphanumeric_segs.length = 96 := by decide
        omega
      · rw [tableIndex_unknown (by omega)]; decide
  · rintro rfl
    refine ⟨tableIndex_space, ?_⟩
    simp only [glyph, getSegmentsToTurnOn, tableIndex_space, Nat.zero_mod, hnone 0 (Or.inl rfl)]
    decide
  · intro h
    rw [tableIndex_printable h]
    omega
  · intro h
    refine ⟨tableIndex_unknown h, ?_⟩
    simp only [glyph, getSegmentsToTurnOn, tableIndex_unknown h, Nat.reduceMod,
      hnone 95 (Or.inr rfl)]
    decide
  · intro h hno
    have hm : (c - 32) % 256 = c - 32 := by omega
    simp only [glyph, getSegmentsToTurnOn, tableIndex_printable h, hm,
      findCharDef_eq_none.2 hno]

/-- C3, an instance: the byte 0x80 after two `defineChar` calls on a fresh driver. -/
theorem printChar_index_total_witness :
    tableIndex 128 < alphanumeric_segs.length ∧
    (128 = 32 → tableIndex 128 = 0 ∧ glyph (defineChars fresh [(65, 1), (66, 2)]) 128 = 0) ∧
    (33 ≤ 128 ∧ 128 ≤ 126 →
      tableIndex 128 = 128 - 32 ∧ 1 ≤ tableIndex 128 ∧ tableIndex 128 ≤ 94) ∧
    (128 < 32 ∨ 126 < 128 →
      tableIndex 128 = 95 ∧ glyph (defineChars fresh [(65, 1), (66, 2)]) 128 = 0x3FFF) ∧
    (33 ≤ 128 ∧ 128 ≤ 126 →
      (∀ d ∈ (defineChars fresh [(65, 1), (66, 2)]).pCharDefList, d.position ≠ 128 - 32) →
      glyph (defineChars fresh [(65, 1), (66, 2)]) 128 = alphanumeric_segs.getD (128 - 32) 0) :=
  printChar_index_total fresh [(65, 1), (66, 2)] 128 rfl (by decide)

/-- C4 fails as stated: in the state that already holds the override
('A', 1), `defineChar('A', 2)` succeeds and the lookup for 'A' still returns 1. -/
theorem defineChar_lookup_counterexample :
    (defineChar (defineChar fresh 65 1).2 65 2).1 = true ∧
    getSegmentsToTurnOn (defineChar (defineChar fresh 65 1).2 65 2).2 (65 - 32) ≠ 2 &&& 0x3FFF := by
  decide

/-- C4 as amended: when the state holds no override for the printable character
`c`, the lookup for `c` after `defineChar(c, m)` returns `m & 0x3FFF`. -/
theorem defineChar_lookup_fresh (s : Driver) (c m : Nat) (hc : 33 ≤ c ∧ c ≤ 126)
    (hno : ∀ d ∈ s.pCharDefList, d.position ≠ c - 32) :
    getSegmentsToTurnOn (defineChar s c m).2 (c - 32) = m &&& 0x3FFF := by
  simp only [getSegmentsToTurnOn, defineChar_list, if_pos hc, findCharDef_append,
    findCharDef_eq_none.2 hno, if_true]

/-- C4 as amended, an instance: '#' with the mask 0xFFFF on a fresh driver. -/
theorem defineChar_lookup_fresh_witness :
    (33 ≤ 35 ∧ 35 ≤ 126) ∧ (∀ d ∈ fresh.pCharDefList, d.position ≠ 35 - 32) ∧
    getSegmentsToTurnOn (defineChar fresh 35 0xFFFF).2 (35 - 32) = 0xFFFF &&& 0x3FFF :=
  ⟨by decide, (by intro d hd; cases hd),
    defineChar_lookup_fresh fresh 35 0xFFFF (by decide) (by intro d hd; cases hd)⟩

/-- C5: when the state holds no override for the printable character `c`, then
after `defineChar(c, m1)` and any further sequence of `defineChar` calls the
lookup for `c` returns `m1 & 0x3FFF`; and the list before any `defineChar` call
is a prefix of the list after it. -/
theorem first_definition_wins (s : Driver) (c m1 : Nat) (defs : List (Nat × Nat))
    (hc : 33 ≤ c ∧ c ≤ 126) (hno : ∀ d ∈ s.pCharDefList, d.position ≠ c - 32) :
    getSegmentsToTurnOn (defineChars (defineChar s c m1).2 defs) (c - 32) = m1 &&& 0x3FFF ∧
    ∀ (t : Driver) (c2 m2 : Nat), t.pCharDefList <+: (defineChar t c2 m2).2.pCharDefList := by
  constructor
  · have h1 : findCharDef (defineChar s c m1).2.pCharDefList (c - 32)
        = some ⟨c - 32, m1 &&& 0x3FFF⟩ := by
      simp only [defineChar_list, if_pos hc, findCharDef_append,
        findCharDef_eq_none.2 hno, if_true]
    have h2 := findCharDef_extends (defineChars_extends defs (defineChar s c m1).2) h1
    simp only [getSegmentsToTurnOn, h2]
  · intro t c2 m2
    rw [defineChar_list]
    split_ifs
    · exact List.prefix_append _ _
    · exact List.prefix_refl _

/-- C5, an instance: 'A' defined as 1, then 'B' as 7 and 'A' again as 2. -/
theorem first_definition_wins_witness :
    getSegmentsToTurnOn (defineChars (defineChar fresh 65 1).2 [(66, 7), (65, 2)]) (65 - 32)
      = 1 &&& 0x3FFF ∧
    ∀ (t : Driver) (c2 m2 : Nat), t.pCharDefList <+: (defineChar t c2 m2).2.pCharDefList :=
  first_definition_wins fresh 65 1 [(66, 7), (65, 2)] (by decide) (by intro d hd; cases hd)

/-- C6: `defineChar(c, m)` returns true exactly for 0x21 <= c <= 0x7E. When it
returns false the whole state, hence every lookup, is unchanged; when it
returns true the one entry `(c - 0x20, m & 0x3FFF)` is appended. The RAM image,
the cursor and the shadow are unchanged in both cases. -/
theorem defineChar_result (s : Driver) (c m : Nat) :
    ((defineChar s c m).1 = true ↔ 33 ≤ c ∧ c ≤ 126) ∧
    ((defineChar s c m).1 = false →
      (defineChar s c m).2 = s ∧
      ∀ p, getSegmentsToTurnOn (defineChar s c m).2 p = getSegmentsToTurnOn s p) ∧
    ((defineChar s c m).1 = true →
      (defineChar s c m).2.pCharDefList = s.pCharDefList ++ [⟨c - 32, m &&& 0x3FFF⟩]) ∧
    (defineChar s c m).2.displayRAM = s.displayRAM ∧
    (defineChar s c m).2.digitPosition = s.digitPosition ∧
    (defineChar s c m).2.displayContent = s.displayContent := by
  by_cases h : 33 ≤ c ∧ c ≤ 126
  · have h2 : (c - 33 + 1) % 65536 = c - 32 := by omega
    simp [defineChar, h, h2]
  · simp [defineChar, h]

/-! ## Frame lemmas -/

theorem foldl_updateDisplayStep_frame {α : Type} (f : Driver → α)
    (hf : ∀ (s : Driver) (w : TwoWire), f { s with _i2cPort := w } = f s)
    (l : List Nat) (acc : Bool × Driver) :
    f (l.foldl updateDisplayStep acc).2 = f acc.2 := by
  induction l generalizing acc with
  | nil => rfl
  | cons i l ih =>
    rw [List.foldl_cons, ih]
    exact hf _ _

theorem updateDisplay_frame {α : Type} (f : Driver → α)
    (hf : ∀ (s : Driver) (w : TwoWire), f { s with _i2cPort := w } = f s) (s : Driver) :
    f (updateDisplay s).2 = f s :=
  foldl_updateDisplayStep_frame f hf _ _

theorem illuminateChar_frame {α : Type} (f : Driver → α)
    (hf : ∀ (s : Driver) (r : Nat → Nat), f { s with displayRAM := r } = f s)
    (s : Driver) (m digit : Nat) :
    f (illuminateChar s m digit) = f s := by
  unfold illuminateChar
  generalize List.range 14 = l
  induction l generalizing s with
  | nil => rfl
  | cons i l ih =>
    rw [List.foldl_cons, ih]
    split_ifs
    · exact hf _ _
    · rfl

theorem setDecimalOnOff_frame {α : Type} (f : Driver → α)
    (hw : ∀ (s : Driver) (w : TwoWire), f { s with _i2cPort := w } = f s)
    (hr : ∀ (s : Driver) (r : Nat → Nat), f { s with displayRAM := r } = f s)
    (hd : ∀ (s : Driver) (b : Bool), f { s with decimalOnOff := b } = f s)
    (s : Driver) (k : Nat) (b : Bool) :
    f (setDecimalOnOff s k b).2 = f s := by
  exact (updateDisplay_frame f hw _).trans ((hr _ _).trans (hd s b))

theorem setColonOnOff_frame {α : Type} (f : Driver → α)
    (hw : ∀ (s : Driver) (w : TwoWire), f { s with _i2cPort := w } = f s)
    (hr : ∀ (s : Driver) (r : Nat → Nat), f { s with displayRAM := r } = f s)
    (hc : ∀ (s : Driver) (b : Bool), f { s with colonOnOff := b } = f s)
    (s : Driver) (k : Nat) (b : Bool) :
    f (setColonOnOff s k b).2 = f s := by
  exact (updateDisplay_frame f hw _).trans ((hr _ _).trans (hc s b))

theorem printChar_frame {α : Type} (f : Driver → α)
    (hw : ∀ (s : Driver) (w : TwoWire), f { s with _i2cPort := w } = f s)
    (hr : ∀ (s : Driver) (r : Nat → Nat), f { s with displayRAM := r } = f s)
    (hd : ∀ (s : Driver) (b : Bool), f { s with decimalOnOff := b } = f s)
    (hc : ∀ (s : Driver) (b : Bool), f { s with colonOnOff := b } = f s)
    (s : Driver) (c digit : Nat) :
    f (printChar s c digit) = f s := by
  unfold printChar
  simp only
  rw [illuminateChar_frame f hr]
  split_ifs
  · exact (setColonOnOff_frame f hw hr hc _ _ _).trans (setDecimalOnOff_frame f hw hr hd _ _ _)
  · exact setColonOnOff_frame f hw hr hc _ _ _
  · exact setDecimalOnOff_frame f hw hr hd _ _ _
  · rfl

theorem characterPosition_ne_special {c : Nat} (h1 : c ≠ 46) (h2 : c ≠ 58) :
    characterPosition c ≠ 14 ∧ characterPosition c ≠ 26 := by
  unfold characterPosition
  split_ifs <;> omega

theorem printChar_plain (s : Driver) (c digit : Nat) (h1 : c ≠ 46) (h2 : c ≠ 58) :
    printChar s c digit = illuminateChar s (glyph s c) digit := by
  have h := characterPosition_ne_special h1 h2
  simp [printChar, glyph, h.1, h.2]

theorem zeroDisplayRAM_eq (s : Driver) :
    zeroDisplayRAM s =
      { s with displayRAM := fun a => if a < 16 * s.numberOfDisplays then 0 else s.displayRAM a } := by
  unfold zeroDisplayRAM
  generalize 16 * s.numberOfDisplays = k
  induction k with
  | zero => simp
  | succ k ih =>
    rw [List.range_succ, List.foldl_append, ih]
    simp only [List.foldl_cons, List.foldl_nil]
    congr 1
    funext a
    by_cases h : a = k
    · simp [h]
    · have : a < k + 1 ↔ a < k := by omega
      simp [h, this]

/-! ## Bits of the RAM image -/

theorem target_row_le (segment digit : Nat) : (illuminateSegmentTarget segment digit).2 ≤ 7 := by
  have h4 : digit % 4 < 4 := Nat.mod_lt _ (by decide)
  unfold illuminateSegmentTarget
  simp only
  split_ifs <;> omega

theorem shift_and_one (m i : Nat) : ((m >>> i) &&& 1 ≠ 0) ↔ m.testBit i = true := by
  rw [Nat.and_one_is_mod, Nat.shiftRight_eq_div_pow, Nat.testBit_to_div_mod]
  simp only [decide_eq_true_eq]
  omega

theorem segmentCom_val (i : Nat) (hi : i < 14) :
    segmentCom (65 + i) = if i < 7 then i else if i = 7 then 1 else if i = 8 then 0 else i - 7 := by
  interval_cases i <;> rfl

theorem target_inj (i i2 d d2 : Nat) (hi : i < 14) (hi2 : i2 < 14) (hd : d < 64) (hd2 : d2 < 64)
    (h : illuminateSegmentTarget (65 + i) d = illuminateSegmentTarget (65 + i2) d2) :
    i = i2 ∧ d = d2 := by
  rw [target_closed i d hi hd, target_closed i2 d2 hi2 hd2, segmentCom_val i hi,
    segmentCom_val i2 hi2] at h
  have h1 := congrArg Prod.fst h
  have h2 := congrArg Prod.snd h
  simp only at h1 h2
  have r1 : d % 4 < 4 := Nat.mod_lt _ (by decide)
  have r2 : d2 % 4 < 4 := Nat.mod_lt _ (by decide)
  split_ifs at h1 h2 <;> omega

theorem illuminateSegment_testBit (s : Driver) (segment digit a j : Nat) (hj : j < 8) :
    ((illuminateSegment s segment digit).displayRAM a).testBit j = true ↔
      ((s.displayRAM a).testBit j = true ∨ illuminateSegmentTarget segment digit = (a, j)) := by
  have hrow := target_row_le segment digit
  have hdat : (1 <<< (illuminateSegmentTarget segment digit).2) % 256
      = 2 ^ (illuminateSegmentTarget segment digit).2 := by
    generalize (illuminateSegmentTarget segment digit).2 = r at hrow
    interval_cases r <;> rfl
  show (if a = (illuminateSegmentTarget segment digit).1
      then (s.displayRAM a ||| (1 <<< (illuminateSegmentTarget segment digit).2) % 256) % 2 ^ 8
      else s.displayRAM a).testBit j = true ↔ _
  rw [hdat]
  by_cases ha : a = (illuminateSegmentTarget segment digit).1
  · rw [if_pos ha, Nat.testBit_mod_two_pow, Nat.testBit_or, Nat.testBit_two_pow]
    simp only [hj, decide_True, Bool.true_and, Bool.or_eq_true, decide_eq_true_eq]
    constructor
    · rintro (h | h)
      · exact Or.inl h
      · exact Or.inr (Prod.ext ha.symm h)
    · rintro (h | h)
      · exact Or.inl h
      · exact Or.inr (congrArg Prod.snd h)
  · rw [if_neg ha]
    constructor
    · exact Or.inl
    · rintro (h | h)
      · exact h
      · exact absurd (congrArg Prod.fst h).symm ha

theorem illuminateChar_testBit (s : Driver) (m digit a j : Nat) (hj : j < 8) :
    ((illuminateChar s m digit).displayRAM a).testBit j = true ↔
      ((s.displayRAM a).testBit j = true ∨
        ∃ i, i < 14 ∧ m.testBit i = true ∧ illuminateSegmentTarget (65 + i) digit = (a, j)) := by
  have key : ∀ k, k ≤ 14 →
      ((((List.range k).foldl
        (fun acc i => if (m >>> i) &&& 1 ≠ 0
          then illuminateSegment acc ((65 + i) % 256) digit else acc) s).displayRAM a).testBit j
        = true ↔
      ((s.displayRAM a).testBit j = true ∨
        ∃ i, i < k ∧ m.testBit i = true ∧ illuminateSegmentTarget (65 + i) digit = (a, j))) := by
    intro k
    induction k with
    | zero => intro _; simp
    | succ k ih =>
      intro hk
      have ih2 := ih (by omega)
      have hmod : (65 + k) % 256 = 65 + k := by omega
      rw [List.range_succ, List.foldl_append]
      simp only [List.foldl_cons, List.foldl_nil]
      by_cases hb : (m >>> k) &&& 1 ≠ 0
      · rw [if_pos hb, illuminateSegment_testBit _ _ _ _ _ hj, ih2, hmod]
        have hb2 := (shift_and_one m k).1 hb
        constructor
        · rintro ((h | ⟨i, h1, h2, h3⟩) | h)
          · exact Or.inl h
          · exact Or.inr ⟨i, by omega, h2, h3⟩
          · exact Or.inr ⟨k, by omega, hb2, h⟩
        · rintro (h | ⟨i, h1, h2, h3⟩)
          · exact Or.inl (Or.inl h)
          · by_cases hik : i = k
            · subst hik; exact Or.inr h3
            · exact Or.inl (Or.inr ⟨i, by omega, h2, h3⟩)
      · rw [if_neg hb, ih2]
        have hb2 : ¬ m.testBit k = true := fun h => hb ((shift_and_one m k).2 h)
        constructor
        · rintro (h | ⟨i, h1, h2, h3⟩)
          · exact Or.inl h
          · exact Or.inr ⟨i, by omega, h2, h3⟩
        · rintro (h | ⟨i, h1, h2, h3⟩)
          · exact Or.inl h
          · by_cases hik : i = k
            · subst hik; exact absurd h2 hb2
            · exact Or.inr ⟨i, by omega, h2, h3⟩
  exact key 14 (le_refl _)

theorem foldl_or_bits_testBit (f : Nat → Bool) (k j : Nat) :
    ((List.range k).foldl (fun acc i => if f i = true then acc ||| (1 <<< i) else acc) 0).testBit j
      = true ↔ (j < k ∧ f j = true) := by
  induction k with
  | zero => simp
  | succ k ih =>
    rw [List.range_succ, List.foldl_append]
    simp only [List.foldl_cons, List.foldl_nil]
    by_cases hf : f k = true
    · rw [if_pos hf, Nat.testBit_or, Nat.one_shiftLeft, Nat.testBit_two_pow, Bool.or_eq_true, ih]
      simp only [decide_eq_true_eq]
      constructor
      · rintro (⟨h1, h2⟩ | h)
        · exact ⟨by omega, h2⟩
        · subst h; exact ⟨by omega, hf⟩
      · rintro ⟨h1, h2⟩
        by_cases hjk : k = j
        · exact Or.inr hjk
        · exact Or.inl ⟨by omega, h2⟩
    · rw [if_neg hf, ih]
      constructor
      · rintro ⟨h1, h2⟩
        exact ⟨by omega, h2⟩
      · rintro ⟨h1, h2⟩
        by_cases hjk : j = k
        · subst hjk; exact absurd h2 hf
        · exact ⟨by omega, h2⟩

theorem decodedMask_testBit (ram : Nat → Nat) (digit i : Nat) :
    (decodedMask ram digit).testBit i = true ↔
      (i < 14 ∧ (ram (illuminateSegmentTarget (65 + i) digit).1).testBit
        (illuminateSegmentTarget (65 + i) digit).2 = true) :=
  foldl_or_bits_testBit
    (fun i => (ram (illuminateSegmentTarget (65 + i) digit).1).testBit
      (illuminateSegmentTarget (65 + i) digit).2) 14 i

theorem decodedMask_illuminateChar (s : Driver) (m d d2 : Nat) (hm : m < 16384)
    (hd : d < 64) (hd2 : d2 < 64) :
    decodedMask (illuminateChar s m d).displayRAM d2 =
      if d2 = d then decodedMask s.displayRAM d2 ||| m else decodedMask s.displayRAM d2 := by
  apply Nat.eq_of_testBit_eq
  intro i
  rw [Bool.eq_iff_iff, decodedMask_testBit,
    illuminateChar_testBit _ _ _ _ _ (Nat.lt_succ_of_le (target_row_le _ _))]
  by_cases hdd : d2 = d
  · subst hdd
    rw [if_pos rfl, Nat.testBit_or, Bool.or_eq_true, decodedMask_testBit]
    constructor
    · rintro ⟨h1, h | ⟨k, hk, hmk, hT⟩⟩
      · exact Or.inl ⟨h1, h⟩
      · have := (target_inj k i d2 d2 hk h1 hd2 hd2 hT).1
        subst this
        exact Or.inr hmk
    · rintro (⟨h1, h⟩ | h)
      · exact ⟨h1, Or.inl h⟩
      · have h14 : i < 14 := by
          by_contra hge
          have hlt : m < 2 ^ i :=
            Nat.lt_of_lt_of_le hm (le_trans (by decide : 16384 ≤ 2 ^ 14)
              (Nat.pow_le_pow_right (by decide) (by omega)))
          rw [Nat.testBit_lt_two_pow hlt] at h
          exact Bool.noConfusion h
        exact ⟨h14, Or.inr ⟨i, h14, h, rfl⟩⟩
  · rw [if_neg hdd, decodedMask_testBit]
    constructor
    · rintro ⟨h1, h | ⟨k, hk, hmk, hT⟩⟩
      · exact ⟨h1, h⟩
      · exact absurd (target_inj k i d d2 hk h1 hd hd2 hT).2.symm hdd
    · rintro ⟨h1, h⟩
      exact ⟨h1, Or.inl h⟩

theorem table_entries_lt : ∀ x ∈ alphanumeric_segs, x < 16384 := by decide

theorem findCharDef_mem {l : List CharDef} {p : Nat} {d : CharDef}
    (hf : findCharDef l p = some d) : d ∈ l := by
  induction l with
  | nil => simp [findCharDef] at hf
  | cons e l ih =>
    by_cases he : e.position = p
    · simp only [findCharDef, ne_eq, he, not_true_eq_false, if_false, Option.some.injEq] at hf
      subst hf; exact List.mem_cons_self _ _
    · simp only [findCharDef, ne_eq, he, not_false_eq_true, if_true] at hf
      exact List.mem_cons_of_mem _ (ih hf)

theorem glyph_lt (s : Driver) (c : Nat) (h : OverridesInRange s) : glyph s c < 16384 := by
  unfold glyph getSegmentsToTurnOn
  cases hf : findCharDef s.pCharDefList (tableIndex c % 256) with
  | some d =>
    have hmem : d ∈ s.pCharDefList := findCharDef_mem hf
    exact (h d hmem).2.2
  | none =>
    simp only
    by_cases hlt : tableIndex c % 256 < alphanumeric_segs.length
    · rw [List.getD_eq_getElem _ _ hlt]
      exact table_entries_lt _ (List.getElem_mem _)
    · rw [List.getD_eq_default _ _ (by omega)]
      decide

/-! ## Accumulation of segments -/

/-- C7: for a byte other than '.' and ':' and a digit of the chain, `printChar`
only sets bits: every bit of every RAM byte that was set is still set, the
decoded mask of the digit becomes its old value OR the glyph, and the decoded
mask of every other digit of the chain is unchanged. -/
theorem printChar_accumulates (s : Driver) (c d : Nat)
    (hn : 1 ≤ s.numberOfDisplays ∧ s.numberOfDisplays ≤ 4) (hc : c ≠ 46 ∧ c ≠ 58)
    (hd : d < 4 * s.numberOfDisplays) (hov : OverridesInRange s) :
    (∀ a j, j < 8 → (s.displayRAM a).testBit j = true →
      ((printChar s c d).displayRAM a).testBit j = true) ∧
    decodedMask (printChar s c d).displayRAM d = decodedMask s.displayRAM d ||| glyph s c ∧
    (∀ d2, d2 < 4 * s.numberOfDisplays → d2 ≠ d →
      decodedMask (printChar s c d).displayRAM d2 = decodedMask s.displayRAM d2) := by
  rw [printChar_plain s c d hc.1 hc.2]
  have hg := glyph_lt s c hov
  refine ⟨?_, ?_, ?_⟩
  · intro a j hj h
    exact (illuminateChar_testBit s _ d a j hj).2 (Or.inl h)
  · rw [decodedMask_illuminateChar s _ d d hg (by omega) (by omega), if_pos rfl]
  · intro d2 hd2 hne
    rw [decodedMask_illuminateChar s _ d d2 hg (by omega) (by omega), if_neg hne]

/-- C7, an instance: 'B' printed at digit 1 of a fresh driver. -/
theorem printChar_accumulates_witness :
    (∀ a j, j < 8 → (fresh.displayRAM a).testBit j = true →
      ((printChar fresh 66 1).displayRAM a).testBit j = true) ∧
    decodedMask (printChar fresh 66 1).displayRAM 1
      = decodedMask fresh.displayRAM 1 ||| glyph fresh 66 ∧
    (∀ d2, d2 < 4 * fresh.numberOfDisplays → d2 ≠ 1 →
      decodedMask (printChar fresh 66 1).displayRAM d2 = decodedMask fresh.displayRAM d2) :=
  printChar_accumulates fresh 66 1 (by decide) (by decide) (by decide)
    (by intro d hd; cases hd)

/-! ## Clearing -/

theorem view_updateDisplay (a : Nat) (s : Driver) : view a (updateDisplay s).2 = view a s :=
  updateDisplay_frame (view a) (fun _ _ => rfl) s

theorem view_illuminateSegment {a : Nat} {s t : Driver} (segment digit : Nat)
    (h : view a s = view a t) :
    view a (illuminateSegment s segment digit) = view a (illuminateSegment t segment digit) := by
  simp only [view, illuminateSegment, Prod.mk.injEq] at h ⊢
  obtain ⟨h1, h2, h3, h4⟩ := h
  simp [h1, h2, h3, h4]

theorem view_illuminateChar {a : Nat} {s t : Driver} (m digit : Nat)
    (h : view a s = view a t) :
    view a (illuminateChar s m digit) = view a (illuminateChar t m digit) := by
  unfold illuminateChar
  generalize List.range 14 = l
  induction l generalizing s t with
  | nil => exact h
  | cons i l ih =>
    rw [List.foldl_cons, List.foldl_cons]
    apply ih
    split_ifs
    · exact view_illuminateSegment _ _ h
    · exact h

theorem view_setDecimalOnOff {a : Nat} {s t : Driver} (k : Nat) (b : Bool)
    (h : view a s = view a t) :
    view a (setDecimalOnOff s k b).2 = view a (setDecimalOnOff t k b).2 := by
  unfold setDecimalOnOff
  simp only [view_updateDisplay]
  simp only [view, Prod.mk.injEq] at h ⊢
  obtain ⟨h1, h2, h3, h4⟩ := h
  simp [h1, h2, h3, h4]

theorem view_setColonOnOff {a : Nat} {s t : Driver} (k : Nat) (b : Bool)
    (h : view a s = view a t) :
    view a (setColonOnOff s k b).2 = view a (setColonOnOff t k b).2 := by
  unfold setColonOnOff
  simp only [view_updateDisplay]
  simp only [view, Prod.mk.injEq] at h ⊢
  obtain ⟨h1, h2, h3, h4⟩ := h
  simp [h1, h2, h3, h4]

theorem view_printChar {a : Nat} {s t : Driver} (c digit : Nat)
    (h : view a s = view a t) :
    view a (printChar s c digit) = view a (printChar t c digit) := by
  have hp : s.digitPosition = t.digitPosition := congrArg (fun v => v.2.1) h
  unfold printChar
  simp only [hp]
  have h1 : view a (if characterPosition c = 14
        then (decimalOnSingle s (t.digitPosition / 4 % 256)).2 else s)
      = view a (if characterPosition c = 14
        then (decimalOnSingle t (t.digitPosition / 4 % 256)).2 else t) := by
    split_ifs
    · exact view_setDecimalOnOff _ _ h
    · exact h
  have h2 : view a (if characterPosition c = 26
        then (colonOnSingle (if characterPosition c = 14
          then (decimalOnSingle s (t.digitPosition / 4 % 256)).2 else s)
            (t.digitPosition / 4 % 256)).2
        else (if characterPosition c = 14
          then (decimalOnSingle s (t.digitPosition / 4 % 256)).2 else s))
      = view a (if characterPosition c = 26
        then (colonOnSingle (if characterPosition c = 14
          then (decimalOnSingle t (t.digitPosition / 4 % 256)).2 else t)
            (t.digitPosition / 4 % 256)).2
        else (if characterPosition c = 14
          then (decimalOnSingle t (t.digitPosition / 4 % 256)).2 else t)) := by
    split_ifs
    · exact view_setColonOnOff _ _ (view_setDecimalOnOff _ _ h)
    · exact view_setColonOnOff _ _ h
    · exact view_setDecimalOnOff _ _ h
    · exact h
  have hl := congrArg (fun v => v.2.2.1) h2
  simp only [view] at hl
  simp only [getSegmentsToTurnOn, hl]
  exact view_illuminateChar _ _ h2

theorem view_write {a : Nat} {s t : Driver} (b : Nat) (h : view a s = view a t) :
    view a (write s b).2 = view a (write t b).2 := by
  have hp : s.digitPosition = t.digitPosition := congrArg (fun v => v.2.1) h
  unfold write
  simp only [view_updateDisplay]
  split_ifs
  · exact view_printChar _ _ h
  · have h1 : view a { s with digitPosition := (t.digitPosition + 1) % 256 }
        = view a { t with digitPosition := (t.digitPosition + 1) % 256 } := by
      simp only [view, Prod.mk.injEq] at h ⊢
      exact ⟨h.1, trivial, h.2.2.1, h.2.2.2⟩
    have h2 := view_printChar (a := a) b t.digitPosition h1
    rw [hp]
    simp only [view, Prod.mk.injEq] at h2 ⊢
    obtain ⟨h1, h2, h3, h4⟩ := h2
    exact ⟨h1, by rw [h1, h2], h3, h4⟩

theorem write_frame {α : Type} (f : Driver → α)
    (hw : ∀ (s : Driver) (w : TwoWire), f { s with _i2cPort := w } = f s)
    (hr : ∀ (s : Driver) (r : Nat → Nat), f { s with displayRAM := r } = f s)
    (hd : ∀ (s : Driver) (b : Bool), f { s with decimalOnOff := b } = f s)
    (hc : ∀ (s : Driver) (b : Bool), f { s with colonOnOff := b } = f s)
    (hp : ∀ (s : Driver) (p : Nat), f { s with digitPosition := p } = f s)
    (s : Driver) (b : Nat) :
    f (write s b).2 = f s := by
  unfold write
  simp only
  rw [updateDisplay_frame f hw]
  split_ifs
  · exact printChar_frame f hw hr hd hc _ _ _
  · exact (hp _ _).trans ((printChar_frame f hw hr hd hc _ _ _).trans (hp _ _))

theorem view_clear (a : Nat) (s : Driver) :
    view a (clear s).2 = (s.numberOfDisplays, 0, s.pCharDefList,
      if a < 16 * s.numberOfDisplays then 0 else s.displayRAM a) := by
  unfold clear
  rw [view_updateDisplay, zeroDisplayRAM_eq]
  rfl

/-- C8: after `clear()` all `16 * numberOfDisplays` bytes of the RAM image are 0
and the cursor is 0; hence the RAM image after `write(a); clear(); write(b)`
equals the RAM image after `clear(); write(b)`. -/
theorem clear_zeroes_image (s : Driver) (a b : Nat)
    (_hn : 1 ≤ s.numberOfDisplays ∧ s.numberOfDisplays ≤ 4) :
    (∀ i, i < 16 * s.numberOfDisplays → (clear s).2.displayRAM i = 0) ∧
    (clear s).2.digitPosition = 0 ∧
    (∀ i, i < 16 * s.numberOfDisplays →
      (write (clear (write s a).2).2 b).2.displayRAM i = (write (clear s).2 b).2.displayRAM i) := by
  refine ⟨?_, ?_, ?_⟩
  · intro i hi
    have h := congrArg (fun v => v.2.2.2) (view_clear i s)
    simpa [view, hi] using h
  · exact congrArg (fun v => v.2.1) (view_clear 0 s)
  · intro i hi
    have hN : (write s a).2.numberOfDisplays = s.numberOfDisplays :=
      write_frame (fun s => s.numberOfDisplays) (fun _ _ => rfl) (fun _ _ => rfl)
        (fun _ _ => rfl) (fun _ _ => rfl) (fun _ _ => rfl) s a
    have hL : (write s a).2.pCharDefList = s.pCharDefList :=
      write_frame (fun s => s.pCharDefList) (fun _ _ => rfl) (fun _ _ => rfl)
        (fun _ _ => rfl) (fun _ _ => rfl) (fun _ _ => rfl) s a
    have hv : view i (clear (write s a).2).2 = view i (clear s).2 := by
      rw [view_clear, view_clear, hN, hL, if_pos hi, if_pos hi]
    exact congrArg (fun v => v.2.2.2) (view_write b hv)

/-- C8, an instance: 'A', clear, 'B' on a fresh driver. -/
theorem clear_zeroes_image_witness :
    (∀ i, i < 16 * fresh.numberOfDisplays → (clear fresh).2.displayRAM i = 0) ∧
    (clear fresh).2.digitPosition = 0 ∧
    (∀ i, i < 16 * fresh.numberOfDisplays →
      (write (clear (write fresh 65).2).2 66).2.displayRAM i
        = (write (clear fresh).2 66).2.displayRAM i) :=
  clear_zeroes_image fresh 65 66 (by decide)

/-! ## Writing a buffer -/

theorem printChar_numberOfDisplays (s : Driver) (c d : Nat) :
    (printChar s c d).numberOfDisplays = s.numberOfDisplays :=
  printChar_frame (fun s => s.numberOfDisplays) (fun _ _ => rfl) (fun _ _ => rfl)
    (fun _ _ => rfl) (fun _ _ => rfl) s c d

theorem printChar_digitPosition (s : Driver) (c d : Nat) :
    (printChar s c d).digitPosition = s.digitPosition :=
  printChar_frame (fun s => s.digitPosition) (fun _ _ => rfl) (fun _ _ => rfl)
    (fun _ _ => rfl) (fun _ _ => rfl) s c d

theorem printChar_pCharDefList (s : Driver) (c d : Nat) :
    (printChar s c d).pCharDefList = s.pCharDefList :=
  printChar_frame (fun s => s.pCharDefList) (fun _ _ => rfl) (fun _ _ => rfl)
    (fun _ _ => rfl) (fun _ _ => rfl) s c d

theorem writeBufferStep_numberOfDisplays (s : Driver) (c : Nat) :
    (writeBufferStep s c).numberOfDisplays = s.numberOfDisplays := by
  unfold writeBufferStep
  split_ifs <;> simp only [printChar_numberOfDisplays]

theorem writeBufferStep_pCharDefList (s : Driver) (c : Nat) :
    (writeBufferStep s c).pCharDefList = s.pCharDefList := by
  unfold writeBufferStep
  split_ifs <;> simp only [printChar_pCharDefList]

theorem writeBufferStep_digitPosition (s : Driver) (c : Nat) :
    (writeBufferStep s c).digitPosition =
      if c = 46 ∨ c = 58 then s.digitPosition
      else (s.digitPosition + 1) % 256 % (s.numberOfDisplays * 4) := by
  unfold writeBufferStep
  by_cases h1 : c = 46
  · simp [h1, printChar_digitPosition]
  · by_cases h2 : c = 58
    · simp [h2, printChar_digitPosition]
    · simp [h1, h2, printChar_digitPosition, printChar_numberOfDisplays]

theorem writeBufferStep_displayRAM (s : Driver) (c : Nat) (h1 : c ≠ 46) (h2 : c ≠ 58) :
    (writeBufferStep s c).displayRAM
      = (illuminateChar s (glyph s c) s.digitPosition).displayRAM := by
  unfold writeBufferStep
  simp [h1, h2, printChar_plain s c _ h1 h2]

theorem foldl_writeBufferStep_numberOfDisplays (buf : List Nat) (s : Driver) :
    (buf.foldl writeBufferStep s).numberOfDisplays = s.numberOfDisplays := by
  induction buf generalizing s with
  | nil => rfl
  | cons c buf ih => rw [List.foldl_cons, ih, writeBufferStep_numberOfDisplays]

theorem foldl_writeBufferStep_digitPosition (buf : List Nat) (s : Driver)
    (hn : 1 ≤ s.numberOfDisplays ∧ s.numberOfDisplays ≤ 4)
    (hp : s.digitPosition < 4 * s.numberOfDisplays) :
    (buf.foldl writeBufferStep s).digitPosition =
      (s.digitPosition + (buf.filter (fun x => decide (x ≠ 46 ∧ x ≠ 58))).length)
        % (4 * s.numberOfDisplays) := by
  induction buf generalizing s with
  | nil =>
    simp only [List.foldl_nil, List.filter_nil, List.length_nil, Nat.add_zero]
    exact (Nat.mod_eq_of_lt hp).symm
  | cons c buf ih =>
    have hN := writeBufferStep_numberOfDisplays s c
    have hP := writeBufferStep_digitPosition s c
    have hpos : 0 < 4 * s.numberOfDisplays := by omega
    by_cases hc : c = 46 ∨ c = 58
    · rw [if_pos hc] at hP
      have hf : List.filter (fun x => decide (x ≠ 46 ∧ x ≠ 58)) (c :: buf)
          = List.filter (fun x => decide (x ≠ 46 ∧ x ≠ 58)) buf := by
        rw [List.filter_cons, if_neg]
        simp only [decide_eq_true_eq]; omega
      rw [List.foldl_cons, ih _ (by rw [hN]; exact hn) (by rw [hN, hP]; exact hp), hN, hP, hf]
    · rw [if_neg hc] at hP
      have hmod : (s.digitPosition + 1) % 256 % (s.numberOfDisplays * 4)
          = (s.digitPosition + 1) % (4 * s.numberOfDisplays) := by
        rw [Nat.mod_eq_of_lt (by omega : s.digitPosition + 1 < 256), Nat.mul_comm]
      rw [hmod] at hP
      have hf : List.filter (fun x => decide (x ≠ 46 ∧ x ≠ 58)) (c :: buf)
          = c :: List.filter (fun x => decide (x ≠ 46 ∧ x ≠ 58)) buf := by
        rw [List.filter_cons, if_pos]
        simp only [decide_eq_true_eq]; omega
      rw [List.foldl_cons, ih _ (by rw [hN]; exact hn)
        (by rw [hN, hP]; exact Nat.mod_lt _ hpos), hN, hP, hf,
        List.length_cons, Nat.mod_add_mod]
      congr 1
      omega

theorem glyph_congr {s t : Driver} (h : s.pCharDefList = t.pCharDefList) (c : Nat) :
    glyph s c = glyph t c := by
  simp only [glyph, getSegmentsToTurnOn, h]

theorem decodedMask_zero (ram : Nat → Nat) (n i : Nat) (hi : i < 4 * n) (hn : n ≤ 4)
    (h : ∀ a, a < 16 * n → ram a = 0) : decodedMask ram i = 0 := by
  apply Nat.eq_of_testBit_eq
  intro k
  rw [Nat.zero_testBit]
  cases hb : (decodedMask ram i).testBit k with
  | false => rfl
  | true =>
    obtain ⟨hk, hbit⟩ := (decodedMask_testBit ram i k).1 hb
    have hcom := segmentCom_le k hk
    have hadr : (illuminateSegmentTarget (65 + k) i).1 < 16 * n := by
      rw [target_closed k i hk (by omega)]
      simp only
      omega
    rw [h _ hadr, Nat.zero_testBit] at hbit
    exact Bool.noConfusion hbit

theorem foldl_writeBufferStep_decoded (buf : List Nat) (s : Driver)
    (hn : 1 ≤ s.numberOfDisplays ∧ s.numberOfDisplays ≤ 4)
    (hsp : ∀ c ∈ buf, c ≠ 46 ∧ c ≠ 58)
    (hlen : s.digitPosition + buf.length ≤ 4 * s.numberOfDisplays)
    (hov : OverridesInRange s) (i : Nat) (hi : i < 4 * s.numberOfDisplays) :
    decodedMask (buf.foldl writeBufferStep s).displayRAM i =
      if s.digitPosition ≤ i ∧ i < s.digitPosition + buf.length
      then decodedMask s.displayRAM i ||| glyph s (buf.getD (i - s.digitPosition) 0)
      else decodedMask s.displayRAM i := by
  induction buf generalizing s with
  | nil =>
    have : ¬ (s.digitPosition ≤ i ∧ i < s.digitPosition + ([] : List Nat).length) := by
      simp only [List.length_nil]; omega
    rw [List.foldl_nil, if_neg this]
  | cons c buf ih =>
    have hc := hsp c (List.mem_cons_self _ _)
    have hN := writeBufferStep_numberOfDisplays s c
    have hL := writeBufferStep_pCharDefList s c
    have hP := writeBufferStep_digitPosition s c
    have hR := writeBufferStep_displayRAM s c hc.1 hc.2
    rw [if_neg (by omega : ¬ (c = 46 ∨ c = 58))] at hP
    simp only [List.length_cons] at hlen
    have hstep : decodedMask (writeBufferStep s c).displayRAM i =
        if i = s.digitPosition then decodedMask s.displayRAM i ||| glyph s c
        else decodedMask s.displayRAM i := by
      rw [hR]
      exact decodedMask_illuminateChar s _ _ i (glyph_lt s c hov) (by omega) (by omega)
    have hov2 : OverridesInRange (writeBufferStep s c) := by
      intro d hd; rw [hL] at hd; exact hov d hd
    rw [List.foldl_cons]
    by_cases hwrap : s.digitPosition + 1 < 4 * s.numberOfDisplays
    · have hP2 : (writeBufferStep s c).digitPosition = s.digitPosition + 1 := by
        rw [hP, Nat.mod_eq_of_lt (by omega : s.digitPosition + 1 < 256),
          Nat.mod_eq_of_lt (by omega)]
      rw [ih (writeBufferStep s c) (by rw [hN]; exact hn)
        (fun x hx => hsp x (List.mem_cons_of_mem _ hx)) (by rw [hN, hP2]; omega) hov2
        (by rw [hN]; exact hi), hP2, hstep, glyph_congr hL]
      by_cases h1 : i = s.digitPosition
      · subst h1
        simp
      · by_cases h2 : s.digitPosition + 1 ≤ i ∧ i < s.digitPosition + 1 + buf.length
        · have h3 : s.digitPosition ≤ i ∧ i < s.digitPosition + (c :: buf).length := by
            simp only [List.length_cons]; omega
          have h4 : i - s.digitPosition = (i - (s.digitPosition + 1)) + 1 := by omega
          rw [if_pos h2, if_neg h1, if_pos h3, h4, List.getD_cons_succ]
        · have h3 : ¬ (s.digitPosition ≤ i ∧ i < s.digitPosition + (c :: buf).length) := by
            simp only [List.length_cons]; omega
          rw [if_neg h2, if_neg h1, if_neg h3]
    · have hnil : buf = [] := List.eq_nil_of_length_eq_zero (by omega)
      subst hnil
      rw [List.foldl_nil, hstep]
      by_cases h1 : i = s.digitPosition
      · subst h1
        simp
      · have h3 : ¬ (s.digitPosition ≤ i ∧ i < s.digitPosition + [c].length) := by
          simp only [List.length_cons, List.length_nil]; omega
        rw [if_neg h1, if_neg h3]

/-- C9: when the buffer holds no '.' and no ':' and at most as many bytes as
the chain has digits, `write(buffer, size)` leaves digit `i` decoding to the
glyph of byte `i` for every `i < size` and to 0 for every later digit of the
chain, whatever the RAM image held before. -/
theorem writeBuffer_renders (s : Driver) (buf : List Nat)
    (hn : 1 ≤ s.numberOfDisplays ∧ s.numberOfDisplays ≤ 4)
    (hsp : ∀ c ∈ buf, c ≠ 46 ∧ c ≠ 58)
    (hlen : buf.length ≤ 4 * s.numberOfDisplays)
    (hov : OverridesInRange s) :
    (∀ i c, buf[i]? = some c → decodedMask (writeBuffer s buf).2.displayRAM i = glyph s c) ∧
    (∀ i, buf.length ≤ i → i < 4 * s.numberOfDisplays →
      decodedMask (writeBuffer s buf).2.displayRAM i = 0) := by
  have hram : (writeBuffer s buf).2.displayRAM
      = (buf.foldl writeBufferStep { zeroDisplayRAM s with digitPosition := 0 }).displayRAM :=
    updateDisplay_frame (fun s => s.displayRAM) (fun _ _ => rfl) _
  have hz : ∀ i, i < 4 * s.numberOfDisplays →
      decodedMask ({ zeroDisplayRAM s with digitPosition := 0 } : Driver).displayRAM i = 0 := by
    intro i hi
    apply decodedMask_zero _ s.numberOfDisplays i hi hn.2
    intro a ha
    rw [zeroDisplayRAM_eq]
    simp [ha]
  have hN : ({ zeroDisplayRAM s with digitPosition := 0 } : Driver).numberOfDisplays
      = s.numberOfDisplays := by rw [zeroDisplayRAM_eq]
  have hL : ({ zeroDisplayRAM s with digitPosition := 0 } : Driver).pCharDefList
      = s.pCharDefList := by rw [zeroDisplayRAM_eq]
  have key : ∀ i, i < 4 * s.numberOfDisplays →
      decodedMask (writeBuffer s buf).2.displayRAM i =
        if i < buf.length then glyph s (buf.getD i 0) else 0 := by
    intro i hi
    rw [hram, foldl_writeBufferStep_decoded buf _ (by rw [hN]; exact hn) hsp
      (by rw [hN]; simpa using hlen) (by intro d hd; rw [hL] at hd; exact hov d hd) i
      (by rw [hN]; exact hi), hz i hi, glyph_congr hL]
    simp
  constructor
  · intro i c hic
    obtain ⟨hlt, hget⟩ := List.getElem?_eq_some_iff.1 hic
    rw [key i (by omega), if_pos hlt, List.getD_eq_getElem _ _ hlt, hget]
  · intro i hge hi
    rw [key i hi, if_neg (by omega)]

/-- C9, an instance: "AB" on one chip gives digit 0 the glyph of 'A', digit 1
the glyph of 'B' and leaves digits 2 and 3 blank. -/
theorem writeBuffer_renders_witness :
    decodedMask (writeBuffer fresh [65, 66]).2.displayRAM 0 = glyph fresh 65 ∧
    decodedMask (writeBuffer fresh [65, 66]).2.displayRAM 1 = glyph fresh 66 ∧
    decodedMask (writeBuffer fresh [65, 66]).2.displayRAM 2 = 0 ∧
    decodedMask (writeBuffer fresh [65, 66]).2.displayRAM 3 = 0 :=
  have h := writeBuffer_renders fresh [65, 66] (by decide) (by decide) (by decide)
    (by intro d hd; cases hd)
  ⟨h.1 0 65 rfl, h.1 1 66 rfl, h.2 2 (by decide) (by decide), h.2 3 (by decide) (by decide)⟩

/-! ## Cursor -/

theorem write_digitPosition (s : Driver) (b : Nat) :
    (write s b).2.digitPosition =
      if b = 46 ∨ b = 58 then s.digitPosition
      else (s.digitPosition + 1) % 256 % (s.numberOfDisplays * 4) := by
  unfold write
  simp only
  rw [updateDisplay_frame (fun s => s.digitPosition) (fun _ _ => rfl)]
  split_ifs
  · exact printChar_digitPosition _ _ _
  · simp only [printChar_digitPosition, printChar_numberOfDisplays]

/-- C10: with the cursor `p` below the number of digits `4 * numberOfDisplays`,
`write(b)` leaves the cursor at `(p + 1) mod 4n` for a byte other than '.' and
':' and at `p` for '.' and ':'; the cursor is again below `4n` after `write(b)`,
after `clear()` and after `write(buffer, size)`, where it is the number of bytes
other than '.' and ':' modulo `4n`. -/
theorem cursor_rule (s : Driver) (b : Nat) (buf : List Nat)
    (hn : 1 ≤ s.numberOfDisplays ∧ s.numberOfDisplays ≤ 4)
    (hp : s.digitPosition < 4 * s.numberOfDisplays) :
    (b ≠ 46 → b ≠ 58 →
      (write s b).2.digitPosition = (s.digitPosition + 1) % (4 * s.numberOfDisplays)) ∧
    (write s 46).2.digitPosition = s.digitPosition ∧
    (write s 58).2.digitPosition = s.digitPosition ∧
    (write s b).2.digitPosition < 4 * s.numberOfDisplays ∧
    (clear s).2.digitPosition < 4 * s.numberOfDisplays ∧
    (writeBuffer s buf).2.digitPosition =
      (buf.filter (fun x => decide (x ≠ 46 ∧ x ≠ 58))).length % (4 * s.numberOfDisplays) ∧
    (writeBuffer s buf).2.digitPosition < 4 * s.numberOfDisplays := by
  have hpos : 0 < 4 * s.numberOfDisplays := by omega
  have hmod : (s.digitPosition + 1) % 256 % (s.numberOfDisplays * 4)
      = (s.digitPosition + 1) % (4 * s.numberOfDisplays) := by
    rw [Nat.mod_eq_of_lt (by omega : s.digitPosition + 1 < 256), Nat.mul_comm]
  have hbuf : (writeBuffer s buf).2.digitPosition =
      (buf.filter (fun x => decide (x ≠ 46 ∧ x ≠ 58))).length % (4 * s.numberOfDisplays) := by
    have h1 : (writeBuffer s buf).2.digitPosition
        = (buf.foldl writeBufferStep { zeroDisplayRAM s with digitPosition := 0 }).digitPosition :=
      updateDisplay_frame (fun s => s.digitPosition) (fun _ _ => rfl) _
    have hN : ({ zeroDisplayRAM s with digitPosition := 0 } : Driver).numberOfDisplays
        = s.numberOfDisplays := by rw [zeroDisplayRAM_eq]
    rw [h1, foldl_writeBufferStep_digitPosition buf _ (by rw [hN]; exact hn)
      (by rw [hN]; exact hpos), hN]
    simp
  refine ⟨?_, ?_, ?_, ?_, ?_, hbuf, ?_⟩
  · intro h1 h2
    rw [write_digitPosition, if_neg (by omega), hmod]
  · rw [write_digitPosition, if_pos (Or.inl rfl)]
  · rw [write_digitPosition, if_pos (Or.inr rfl)]
  · rw [write_digitPosition]
    split_ifs
    · exact hp
    · rw [hmod]; exact Nat.mod_lt _ hpos
  · have h0 : (clear s).2.digitPosition = 0 := congrArg (fun v => v.2.1) (view_clear 0 s)
    rw [h0]; exact hpos
  · rw [hbuf]; exact Nat.mod_lt _ hpos

/-- C10, an instance: a fresh driver, the byte 'A' and the buffer "A.B:CDE". -/
theorem cursor_rule_witness :
    (65 ≠ 46 → 65 ≠ 58 →
      (write fresh 65).2.digitPosition = (fresh.digitPosition + 1) % (4 * fresh.numberOfDisplays)) ∧
    (write fresh 46).2.digitPosition = fresh.digitPosition ∧
    (write fresh 58).2.digitPosition = fresh.digitPosition ∧
    (write fresh 65).2.digitPosition < 4 * fresh.numberOfDisplays ∧
    (clear fresh).2.digitPosition < 4 * fresh.numberOfDisplays ∧
    (writeBuffer fresh [65, 46, 66, 58, 67, 68, 69]).2.digitPosition =
      ([65, 46, 66, 58, 67, 68, 69].filter (fun x => decide (x ≠ 46 ∧ x ≠ 58))).length
        % (4 * fresh.numberOfDisplays) ∧
    (writeBuffer fresh [65, 46, 66, 58, 67, 68, 69]).2.digitPosition
      < 4 * fresh.numberOfDisplays :=
  cursor_rule fresh 65 [65, 46, 66, 58, 67, 68, 69] (by decide) (by decide)

/-! ## Decimal point and colon through `write` -/

theorem setDecimalOnOff_displayRAM (s : Driver) (k : Nat) (b : Bool) :
    (setDecimalOnOff s k b).2.displayRAM = fun a =>
      if a = 0x03 + k * 16 then (s.displayRAM a ||| (if b = true then 0x01 else 0x00)) % 256
      else s.displayRAM a :=
  updateDisplay_frame (fun s => s.displayRAM) (fun _ _ => rfl) _

theorem setColonOnOff_displayRAM (s : Driver) (k : Nat) (b : Bool) :
    (setColonOnOff s k b).2.displayRAM = fun a =>
      if a = 0x01 + k * 16 then (s.displayRAM a ||| (if b = true then 0x01 else 0x00)) % 256
      else s.displayRAM a :=
  updateDisplay_frame (fun s => s.displayRAM) (fun _ _ => rfl) _

theorem setDecimalOnOff_pCharDefList (s : Driver) (k : Nat) (b : Bool) :
    (setDecimalOnOff s k b).2.pCharDefList = s.pCharDefList :=
  setDecimalOnOff_frame (fun s => s.pCharDefList) (fun _ _ => rfl) (fun _ _ => rfl)
    (fun _ _ => rfl) s k b

theorem setColonOnOff_pCharDefList (s : Driver) (k : Nat) (b : Bool) :
    (setColonOnOff s k b).2.pCharDefList = s.pCharDefList :=
  setColonOnOff_frame (fun s => s.pCharDefList) (fun _ _ => rfl) (fun _ _ => rfl)
    (fun _ _ => rfl) s k b

theorem or_one_testBit (x j : Nat) (hj : j < 8) :
    ((x ||| 1) % 256).testBit j = true ↔ (j = 0 ∨ x.testBit j = true) := by
  show ((x ||| 1) % 2 ^ 8).testBit j = true ↔ _
  rw [Nat.testBit_mod_two_pow, Nat.testBit_or]
  simp only [hj, decide_True, Bool.true_and, Bool.or_eq_true,
    Nat.testBit_one_eq_true_iff_self_eq_zero]
  exact Or.comm

theorem illuminateChar_zero_testBit (s : Driver) (digit a j : Nat) (hj : j < 8) :
    ((illuminateChar s 0 digit).displayRAM a).testBit j = (s.displayRAM a).testBit j := by
  rw [Bool.eq_iff_iff, illuminateChar_testBit s 0 digit a j hj]
  constructor
  · rintro (h | ⟨i, _, h, _⟩)
    · exact h
    · rw [Nat.zero_testBit] at h; exact Bool.noConfusion h
  · exact Or.inl

theorem printChar_dot_testBit (s : Driver) (digit a j : Nat) (hj : j < 8)
    (hno : ∀ d ∈ s.pCharDefList, d.position ≠ 14) :
    ((printChar s 46 digit).displayRAM a).testBit j = true ↔
      ((a = 0x03 + (s.digitPosition / 4 % 256) * 16 ∧ j = 0) ∨
        (s.displayRAM a).testBit j = true) := by
  have h14 : characterPosition 46 = 14 := by decide
  have ht : tableIndex 46 % 256 = 14 := by decide
  have hseg : getSegmentsToTurnOn (decimalOnSingle s (s.digitPosition / 4 % 256)).2 14 = 0 := by
    unfold getSegmentsToTurnOn decimalOnSingle
    rw [setDecimalOnOff_pCharDefList, findCharDef_eq_none.2 hno]
    decide
  have hp : printChar s 46 digit
      = illuminateChar (decimalOnSingle s (s.digitPosition / 4 % 256)).2 0 digit := by
    unfold printChar
    simp only [h14, ht, if_true, Nat.reduceEqDiff, if_false, hseg]
  rw [hp, illuminateChar_zero_testBit _ _ _ _ hj, decimalOnSingle, setDecimalOnOff_displayRAM]
  simp only [if_true]
  by_cases ha : a = 0x03 + (s.digitPosition / 4 % 256) * 16
  · rw [if_pos ha, or_one_testBit _ _ hj]
    constructor
    · rintro (h | h)
      · exact Or.inl ⟨ha, h⟩
      · exact Or.inr h
    · rintro (⟨_, h⟩ | h)
      · exact Or.inl h
      · exact Or.inr h
  · rw [if_neg ha]
    constructor
    · exact Or.inr
    · rintro (⟨h, _⟩ | h)
      · exact absurd h ha
      · exact h

theorem printChar_colon_testBit (s : Driver) (digit a j : Nat) (hj : j < 8)
    (hno : ∀ d ∈ s.pCharDefList, d.position ≠ 26) :
    ((printChar s 58 digit).displayRAM a).testBit j = true ↔
      ((a = 0x01 + (s.digitPosition / 4 % 256) * 16 ∧ j = 0) ∨
        (s.displayRAM a).testBit j = true) := by
  have h14 : characterPosition 58 = 26 := by decide
  have ht : tableIndex 58 % 256 = 26 := by decide
  have hseg : getSegmentsToTurnOn (colonOnSingle s (s.digitPosition / 4 % 256)).2 26 = 0 := by
    unfold getSegmentsToTurnOn colonOnSingle
    rw [setColonOnOff_pCharDefList, findCharDef_eq_none.2 hno]
    decide
  have hp : printChar s 58 digit
      = illuminateChar (colonOnSingle s (s.digitPosition / 4 % 256)).2 0 digit := by
    unfold printChar
    simp only [h14, ht, if_true, Nat.reduceEqDiff, if_false, hseg]
  rw [hp, illuminateChar_zero_testBit _ _ _ _ hj, colonOnSingle, setColonOnOff_displayRAM]
  simp only [if_true]
  by_cases ha : a = 0x01 + (s.digitPosition / 4 % 256) * 16
  · rw [if_pos ha, or_one_testBit _ _ hj]
    constructor
    · rintro (h | h)
      · exact Or.inl ⟨ha, h⟩
      · exact Or.inr h
    · rintro (⟨_, h⟩ | h)
      · exact Or.inl h
      · exact Or.inr h
  · rw [if_neg ha]
    constructor
    · exact Or.inr
    · rintro (⟨h, _⟩ | h)
      · exact absurd h ha
      · exact h

theorem write_displayRAM_special (s : Driver) (b : Nat) (hb : b = 46 ∨ b = 58) :
    (write s b).2.displayRAM = (printChar s b 0).displayRAM := by
  unfold write
  simp only
  rw [updateDisplay_frame (fun s => s.displayRAM) (fun _ _ => rfl), if_pos hb]

theorem target_even (segment digit : Nat) : (illuminateSegmentTarget segment digit).1 % 2 = 0 := by
  have h4 : digit % 4 < 4 := Nat.mod_lt _ (by decide)
  unfold illuminateSegmentTarget
  simp only
  split_ifs <;> omega

theorem decodedMask_congr_even (r1 r2 : Nat → Nat) (digit : Nat)
    (h : ∀ a j, a % 2 = 0 → j < 8 → (r1 a).testBit j = (r2 a).testBit j) :
    decodedMask r1 digit = decodedMask r2 digit := by
  apply Nat.eq_of_testBit_eq
  intro i
  rw [Bool.eq_iff_iff, decodedMask_testBit, decodedMask_testBit,
    h _ _ (target_even _ _) (Nat.lt_succ_of_le (target_row_le _ _))]

theorem write_displayRAM_plain (s : Driver) (c : Nat) (h1 : c ≠ 46) (h2 : c ≠ 58) :
    (write s c).2.displayRAM
      = (illuminateChar { s with digitPosition := (s.digitPosition + 1) % 256 }
          (glyph s c) s.digitPosition).displayRAM := by
  unfold write
  simp only
  rw [updateDisplay_frame (fun s => s.displayRAM) (fun _ _ => rfl),
    if_neg (by omega : ¬ (c = 46 ∨ c = 58)), printChar_plain _ c _ h1 h2]
  rfl

theorem write_pCharDefList (s : Driver) (b : Nat) :
    (write s b).2.pCharDefList = s.pCharDefList :=
  write_frame (fun s => s.pCharDefList) (fun _ _ => rfl) (fun _ _ => rfl)
    (fun _ _ => rfl) (fun _ _ => rfl) (fun _ _ => rfl) s b

theorem write_numberOfDisplays (s : Driver) (b : Nat) :
    (write s b).2.numberOfDisplays = s.numberOfDisplays :=
  write_frame (fun s => s.numberOfDisplays) (fun _ _ => rfl) (fun _ _ => rfl)
    (fun _ _ => rfl) (fun _ _ => rfl) (fun _ _ => rfl) s b

theorem clear_fields (s : Driver) :
    (clear s).2.numberOfDisplays = s.numberOfDisplays ∧
    (clear s).2.digitPosition = 0 ∧
    (clear s).2.pCharDefList = s.pCharDefList ∧
    (clear s).2.displayContent = s.displayContent ∧
    (clear s).2.displayRAM
      = fun a => if a < 16 * s.numberOfDisplays then 0 else s.displayRAM a := by
  unfold clear
  refine ⟨?_, ?_, ?_, ?_, ?_⟩
  · rw [updateDisplay_frame (fun s => s.numberOfDisplays) (fun _ _ => rfl), zeroDisplayRAM_eq]
  · rw [updateDisplay_frame (fun s => s.digitPosition) (fun _ _ => rfl)]
  · rw [updateDisplay_frame (fun s => s.pCharDefList) (fun _ _ => rfl), zeroDisplayRAM_eq]
  · rw [updateDisplay_frame (fun s => s.displayContent) (fun _ _ => rfl), zeroDisplayRAM_eq]
  · rw [updateDisplay_frame (fun s => s.displayRAM) (fun _ _ => rfl), zeroDisplayRAM_eq]

/-- C11: with the cursor `p` on the chain and no override for '.' or ':',
`write('.')` sets bit 0 of RAM byte `16 * (p / 4) + 3` and `write(':')` sets bit 0
of RAM byte `16 * (p / 4) + 1`; every other RAM bit and the cursor are unchanged.
On a cleared display `write(c)` followed by `write('.')`, for a byte `c` other
than '.' and ':', leaves digit 0 decoding to the glyph of `c`, bit 0 of byte 3
set and the cursor where the first write left it. -/
theorem write_dot_colon (s : Driver) (c : Nat)
    (hn : 1 ≤ s.numberOfDisplays ∧ s.numberOfDisplays ≤ 4)
    (hp : s.digitPosition < 4 * s.numberOfDisplays)
    (hdot : ∀ d ∈ s.pCharDefList, d.position ≠ 14)
    (hcolon : ∀ d ∈ s.pCharDefList, d.position ≠ 26)
    (hc : c ≠ 46 ∧ c ≠ 58) (hov : OverridesInRange s) :
    (∀ a j, j < 8 → (((write s 46).2.displayRAM a).testBit j = true ↔
      ((a = 16 * (s.digitPosition / 4) + 3 ∧ j = 0) ∨ (s.displayRAM a).testBit j = true))) ∧
    (∀ a j, j < 8 → (((write s 58).2.displayRAM a).testBit j = true ↔
      ((a = 16 * (s.digitPosition / 4) + 1 ∧ j = 0) ∨ (s.displayRAM a).testBit j = true))) ∧
    (write s 46).2.digitPosition = s.digitPosition ∧
    (write s 58).2.digitPosition = s.digitPosition ∧
    decodedMask (write (write (clear s).2 c).2 46).2.displayRAM 0 = glyph s c ∧
    ((write (write (clear s).2 c).2 46).2.displayRAM 3).testBit 0 = true ∧
    (write (write (clear s).2 c).2 46).2.digitPosition
      = (write (clear s).2 c).2.digitPosition := by
  have hk : s.digitPosition / 4 % 256 = s.digitPosition / 4 := by omega
  obtain ⟨cN, cP, cL, _, cR⟩ := clear_fields s
  have hL2 : (write (clear s).2 c).2.pCharDefList = s.pCharDefList := by
    rw [write_pCharDefList, cL]
  have hP2 : (write (clear s).2 c).2.digitPosition = 1 := by
    rw [write_digitPosition, if_neg (by omega), cP, cN]
    exact Nat.mod_eq_of_lt (by omega)
  have hdot2 : ∀ d ∈ (write (clear s).2 c).2.pCharDefList, d.position ≠ 14 := by
    rw [hL2]; exact hdot
  have hbits : ∀ a j, j < 8 →
      (((write (write (clear s).2 c).2 46).2.displayRAM a).testBit j = true ↔
        ((a = 3 ∧ j = 0) ∨ ((write (clear s).2 c).2.displayRAM a).testBit j = true)) := by
    intro a j hj
    rw [write_displayRAM_special _ 46 (Or.inl rfl), printChar_dot_testBit _ 0 a j hj hdot2, hP2]
  refine ⟨?_, ?_, ?_, ?_, ?_, ?_, ?_⟩
  · intro a j hj
    rw [write_displayRAM_special s 46 (Or.inl rfl), printChar_dot_testBit s 0 a j hj hdot, hk]
    have : a = 0x03 + s.digitPosition / 4 * 16 ↔ a = 16 * (s.digitPosition / 4) + 3 := by omega
    rw [this]
  · intro a j hj
    rw [write_displayRAM_special s 58 (Or.inr rfl), printChar_colon_testBit s 0 a j hj hcolon, hk]
    have : a = 0x01 + s.digitPosition / 4 * 16 ↔ a = 16 * (s.digitPosition / 4) + 1 := by omega
    rw [this]
  · rw [write_digitPosition, if_pos (Or.inl rfl)]
  · rw [write_digitPosition, if_pos (Or.inr rfl)]
  · have hsame : decodedMask (write (write (clear s).2 c).2 46).2.displayRAM 0
        = decodedMask (write (clear s).2 c).2.displayRAM 0 := by
      apply decodedMask_congr_even
      intro a j ha hj
      rw [Bool.eq_iff_iff, hbits a j hj]
      constructor
      · rintro (⟨h, _⟩ | h)
        · omega
        · exact h
      · exact Or.inr
    have hzero : decodedMask (clear s).2.displayRAM 0 = 0 := by
      apply decodedMask_zero _ s.numberOfDisplays 0 (by omega) hn.2
      intro a ha
      rw [cR]; simp [ha]
    rw [hsame, write_displayRAM_plain _ c hc.1 hc.2, cP,
      decodedMask_illuminateChar _ _ 0 0
        (glyph_lt _ c (by intro d hd; rw [cL] at hd; exact hov d hd)) (by decide) (by decide),
      if_pos rfl]
    show decodedMask (clear s).2.displayRAM 0 ||| glyph (clear s).2 c = glyph s c
    rw [hzero, Nat.zero_or, glyph_congr cL]
  · exact (hbits 3 0 (by decide)).2 (Or.inl ⟨rfl, rfl⟩)
  · rw [write_digitPosition, if_pos (Or.inl rfl)]

/-- C11, an instance: a fresh driver and the byte 'A'. -/
theorem write_dot_colon_witness :
    (∀ a j, j < 8 → (((write fresh 46).2.displayRAM a).testBit j = true ↔
      ((a = 16 * (fresh.digitPosition / 4) + 3 ∧ j = 0) ∨
        (fresh.displayRAM a).testBit j = true))) ∧
    (∀ a j, j < 8 → (((write fresh 58).2.displayRAM a).testBit j = true ↔
      ((a = 16 * (fresh.digitPosition / 4) + 1 ∧ j = 0) ∨
        (fresh.displayRAM a).testBit j = true))) ∧
    (write fresh 46).2.digitPosition = fresh.digitPosition ∧
    (write fresh 58).2.digitPosition = fresh.digitPosition ∧
    decodedMask (write (write (clear fresh).2 65).2 46).2.displayRAM 0 = glyph fresh 65 ∧
    ((write (write (clear fresh).2 65).2 46).2.displayRAM 3).testBit 0 = true ∧
    (write (write (clear fresh).2 65).2 46).2.digitPosition
      = (write (clear fresh).2 65).2.digitPosition :=
  write_dot_colon fresh 65 (by decide) (by decide) (by intro d hd; cases hd)
    (by intro d hd; cases hd) (by decide) (by intro d hd; cases hd)

/-! ## Shift to the left -/

theorem shiftLeftCopy_inv (n k : Nat) (c : Nat → Nat) (j : Nat) (hj : j ≤ 4 * n) :
    (((List.range j).foldl (shiftLeftCopyStep n k) (false, ⟨c, []⟩)).1 = true → j + k > 4 * n) ∧
    (∀ a, ((List.range j).foldl (shiftLeftCopyStep n k) (false, ⟨c, []⟩)).2.displayContent a
      = if a < j ∧ a + k ≤ 4 * n then c (a + k) else c a) ∧
    (∀ a ∈ ((List.range j).foldl (shiftLeftCopyStep n k) (false, ⟨c, []⟩)).2.touched,
      a ≤ 4 * n) := by
  induction j with
  | zero =>
    refine ⟨fun h => Bool.noConfusion h, fun a => ?_, fun a ha => ?_⟩
    · simp
    · simp at ha
  | succ j ih =>
    obtain ⟨ih1, ih2, ih3⟩ := ih (by omega)
    rw [List.range_succ, List.foldl_append]
    simp only [List.foldl_cons, List.foldl_nil]
    generalize (List.range j).foldl (shiftLeftCopyStep n k) (false, ⟨c, []⟩) = r at ih1 ih2 ih3
    unfold shiftLeftCopyStep
    by_cases hb : r.1 = true
    · have := ih1 hb
      rw [if_pos hb]
      refine ⟨fun _ => by omega, fun a => ?_, ih3⟩
      rw [ih2 a]
      by_cases h1 : a < j ∧ a + k ≤ 4 * n
      · rw [if_pos h1, if_pos ⟨by omega, h1.2⟩]
      · rw [if_neg h1, if_neg (by omega)]
    · rw [if_neg hb]
      by_cases hk : j + k > 4 * n
      · rw [if_pos hk]
        refine ⟨fun _ => by omega, fun a => ?_, ih3⟩
        rw [ih2 a]
        by_cases h1 : a < j ∧ a + k ≤ 4 * n
        · rw [if_pos h1, if_pos ⟨by omega, h1.2⟩]
        · rw [if_neg h1, if_neg (by omega)]
      · rw [if_neg hk]
        refine ⟨fun h => Bool.noConfusion h, fun a => ?_, fun a ha => ?_⟩
        · simp only
          by_cases haj : a = j
          · subst haj
            rw [if_pos rfl, ih2, if_neg (by omega), if_pos ⟨by omega, by omega⟩]
          · rw [if_neg haj, ih2 a]
            by_cases h1 : a < j ∧ a + k ≤ 4 * n
            · rw [if_pos h1, if_pos ⟨by omega, h1.2⟩]
            · rw [if_neg h1, if_neg (by omega)]
        · simp only [List.mem_append, List.mem_cons, List.mem_singleton, List.not_mem_nil,
            or_false] at ha
          rcases ha with ha | ha | ha
          · exact ih3 a ha
          · omega
          · omega

theorem shiftLeftClear_inv (n : Nat) (r0 : ShadowRun) (hr0 : ∀ a ∈ r0.touched, a ≤ 4 * n)
    (j : Nat) :
    (((List.range j).foldl (shiftLeftClearStep n) (false, r0)).1 = true → 4 * n < j) ∧
    (∀ a, ((List.range j).foldl (shiftLeftClearStep n) (false, r0)).2.displayContent a
      = if a < 4 * n ∧ 4 * n ≤ a + j then 32 else r0.displayContent a) ∧
    (∀ a ∈ ((List.range j).foldl (shiftLeftClearStep n) (false, r0)).2.touched, a ≤ 4 * n) := by
  induction j with
  | zero =>
    refine ⟨fun h => Bool.noConfusion h, fun a => ?_, hr0⟩
    rw [if_neg (by omega)]
    rfl
  | succ j ih =>
    obtain ⟨ih1, ih2, ih3⟩ := ih
    rw [List.range_succ, List.foldl_append]
    simp only [List.foldl_cons, List.foldl_nil]
    generalize (List.range j).foldl (shiftLeftClearStep n) (false, r0) = r at ih1 ih2 ih3
    unfold shiftLeftClearStep
    by_cases hb : r.1 = true
    · have := ih1 hb
      rw [if_pos hb]
      refine ⟨fun _ => by omega, fun a => ?_, ih3⟩
      rw [ih2 a]
      by_cases h1 : a < 4 * n ∧ 4 * n ≤ a + j
      · rw [if_pos h1, if_pos ⟨h1.1, by omega⟩]
      · rw [if_neg h1, if_neg (by omega)]
    · rw [if_neg hb]
      by_cases hk : (4 * n : Int) - 1 - (j : Int) < 0
      · rw [if_pos hk]
        refine ⟨fun _ => by omega, fun a => ?_, ih3⟩
        rw [ih2 a]
        by_cases h1 : a < 4 * n ∧ 4 * n ≤ a + j
        · rw [if_pos h1, if_pos ⟨h1.1, by omega⟩]
        · rw [if_neg h1, if_neg (by omega)]
      · rw [if_neg hk]
        refine ⟨fun h => Bool.noConfusion h, fun a => ?_, fun a ha => ?_⟩
        · simp only
          by_cases haj : a = 4 * n - 1 - j
          · rw [if_pos haj, if_pos ⟨by omega, by omega⟩]
          · rw [if_neg haj, ih2 a]
            by_cases h1 : a < 4 * n ∧ 4 * n ≤ a + j
            · rw [if_pos h1, if_pos ⟨h1.1, by omega⟩]
            · rw [if_neg h1, if_neg (by omega)]
        · simp only [List.mem_append, List.mem_singleton] at ha
          rcases ha with ha | ha
          · exact ih3 a ha
          · omega

/-- C12: for every shadow content and every shift amount, the shadow array
`shiftLeft` hands to `print` holds at `i` the old byte at `i + k` when
`i + k < N` and a space otherwise, for every `i < N = 4 * numberOfDisplays`; the
indices read or written by the two loops are all at most `N`. -/
theorem shiftLeft_shadow (n k : Nat) (c : Nat → Nat) (_hn : 1 ≤ n ∧ n ≤ 4) (_hk : k ≤ 255) :
    (∀ i, i < 4 * n →
      (shiftLeftShadow n k c).displayContent i = if i + k < 4 * n then c (i + k) else 32) ∧
    (∀ a ∈ (shiftLeftShadow n k c).touched, a ≤ 4 * n) := by
  obtain ⟨_, h2, h3⟩ := shiftLeftCopy_inv n k c (4 * n) (le_refl _)
  obtain ⟨_, g2, g3⟩ := shiftLeftClear_inv n
    ((List.range (4 * n)).foldl (shiftLeftCopyStep n k) (false, ⟨c, []⟩)).2 h3 k
  refine ⟨fun i hi => ?_, g3⟩
  show ((List.range k).foldl (shiftLeftClearStep n) (false, _)).2.displayContent i = _
  rw [g2 i, h2 i]
  by_cases h : i + k < 4 * n
  · rw [if_neg (by omega), if_pos ⟨hi, by omega⟩, if_pos h]
  · rw [if_pos ⟨hi, by omega⟩, if_neg h]

/-- C12, an instance: on one chip "TEST" shifted left by 1 gives "EST ". -/
theorem shiftLeft_shadow_witness :
    (shiftLeftShadow 1 1 (shadowOf [84, 69, 83, 84])).displayContent 0 = 69 ∧
    (shiftLeftShadow 1 1 (shadowOf [84, 69, 83, 84])).displayContent 1 = 83 ∧
    (shiftLeftShadow 1 1 (shadowOf [84, 69, 83, 84])).displayContent 2 = 84 ∧
    (shiftLeftShadow 1 1 (shadowOf [84, 69, 83, 84])).displayContent 3 = 32 ∧
    (∀ a ∈ (shiftLeftShadow 1 1 (shadowOf [84, 69, 83, 84])).touched, a ≤ 4 * 1) :=
  have h := shiftLeft_shadow 1 1 (shadowOf [84, 69, 83, 84]) (by decide) (by decide)
  ⟨h.1 0 (by decide), h.1 1 (by decide), h.1 2 (by decide), h.1 3 (by decide), h.2⟩

/-! ## Shift to the right -/

/-- C13, the code at a failing input: on one chip the shadow "ABCD" shifted
right by 2 ends as two spaces, 'A' and 'D'; position 3 keeps 'D' where the
claim puts 'B'. The first loop starts at index `N - k` and runs once. -/
theorem shiftRight_two_misses :
    ∃ r, shiftRightShadow 1 2 (shadowOf [65, 66, 67, 68]) = some r ∧
      r.displayContent 0 = 32 ∧ r.displayContent 1 = 32 ∧
      r.displayContent 2 = 65 ∧ r.displayContent 3 = 68 ∧
      r.displayContent 3 ≠ shadowOf [65, 66, 67, 68] (3 - 2) :=
  ⟨_, rfl, by decide, by decide, by decide, by decide, by decide⟩

theorem shiftRightCopy_zero_never (fuel x : Nat) (r : ShadowRun) :
    (shiftRightCopy 0 fuel x r).1 = false := by
  induction fuel generalizing x r with
  | zero => simp [shiftRightCopy]
  | succ fuel ih =>
    rw [shiftRightCopy, if_pos (Nat.zero_le x)]
    exact ih _ _

/-- C16, the code at a failing input: with one chip and the shift amount 0 the
first loop of `shiftRight` never ends, whatever number of passes is allowed,
and on its sixth pass it reads and writes index 255 of the shadow array; so
`shiftRight(0)` has no result. -/
theorem shiftRight_zero_diverges (c : Nat → Nat) (s : Driver)
    (hn : s.numberOfDisplays = 1) :
    (∀ fuel, (shiftRightCopy 0 fuel ((4 * 1 + 256 - 0) % 256) ⟨c, []⟩).1 = false) ∧
    255 ∈ (shiftRightCopy 0 6 ((4 * 1 + 256 - 0) % 256) ⟨c, []⟩).2.touched ∧
    shiftRightShadow 1 0 c = none ∧
    shiftRight s 0 = none := by
  have h3 : ∀ c2 : Nat → Nat, shiftRightShadow 1 0 c2 = none := by
    intro c2
    unfold shiftRightShadow
    simp only [shiftRightCopy_zero_never]
    rfl
  refine ⟨fun fuel => shiftRightCopy_zero_never _ _ _, ?_, h3 c, ?_⟩
  · simp [shiftRightCopy]
  · unfold shiftRight
    rw [hn, h3]

/-- C16, an instance: the sample driver. -/
theorem shiftRight_zero_diverges_witness :
    (∀ fuel, (shiftRightCopy 0 fuel ((4 * 1 + 256 - 0) % 256)
      ⟨shadowOf [65, 66, 67, 68], []⟩).1 = false) ∧
    255 ∈ (shiftRightCopy 0 6 ((4 * 1 + 256 - 0) % 256)
      ⟨shadowOf [65, 66, 67, 68], []⟩).2.touched ∧
    shiftRightShadow 1 0 (shadowOf [65, 66, 67, 68]) = none ∧
    shiftRight fresh 0 = none :=
  shiftRight_zero_diverges (shadowOf [65, 66, 67, 68]) fresh rfl

/-! ## Chain-wide bus writes -/

/-- A loop over the displays in which each pass is one `writeRAM` to display
`i` and a failure clears the status: every pass appends its frame to the log,
and the status stays `true` exactly when every transmission is acknowledged. -/
theorem chain_fold (step : Bool × Driver → Nat → Bool × Driver)
    (reg : Driver → Nat → Nat) (buff : Driver → Nat → List Nat)
    (hstep : ∀ acc i, step acc i =
      (if (writeRAM acc.2 (lookUpDisplayAddress acc.2 i) (reg acc.2 i) (buff acc.2 i)).1 = false
        then false else acc.1,
       (writeRAM acc.2 (lookUpDisplayAddress acc.2 i) (reg acc.2 i) (buff acc.2 i)).2))
    (hreg : ∀ (s : Driver) (w : TwoWire) (i : Nat), reg { s with _i2cPort := w } i = reg s i)
    (hbuff : ∀ (s : Driver) (w : TwoWire) (i : Nat), buff { s with _i2cPort := w } i = buff s i)
    (s : Driver) (k : Nat) :
    ((List.range k).foldl step (true, s)).2 =
      { s with _i2cPort :=
          { s._i2cPort with
            sent := s._i2cPort.sent ++
              List.map (fun i => (lookUpDisplayAddress s i, reg s i :: buff s i))
                (List.range k) } } ∧
    (((List.range k).foldl step (true, s)).1 = true ↔
      ∀ i, i < k →
        s._i2cPort.nack (s._i2cPort.sent.length + i) (lookUpDisplayAddress s i) = false) := by
  induction k with
  | zero =>
    refine ⟨?_, ?_⟩
    · simp
    · simp
  | succ k ih =>
    obtain ⟨ih1, ih2⟩ := ih
    rw [List.range_succ, List.foldl_append]
    simp only [List.foldl_cons, List.foldl_nil]
    generalize (List.range k).foldl step (true, s) = r at ih1 ih2
    obtain ⟨b, t⟩ := r
    simp only at ih1 ih2
    subst ih1
    rw [hstep]
    simp only [hreg, hbuff]
    refine ⟨?_, ?_⟩
    · simp [writeRAM, TwoWire.transmit, lookUpDisplayAddress, List.map_append]
    · simp only [writeRAM, TwoWire.transmit, List.length_append, List.length_map,
        List.length_range]
      have hl : ∀ i, lookUpDisplayAddress
          { s with _i2cPort :=
              { s._i2cPort with
                sent := s._i2cPort.sent ++
                  List.map (fun i => (lookUpDisplayAddress s i, reg s i :: buff s i))
                    (List.range k) } } i
          = lookUpDisplayAddress s i := fun i => rfl
      rw [hl]
      constructor
      · intro h i hi
        by_cases hik : i = k
        · subst hik
          by_contra hne
          simp [hne] at h
        · have hb : b = true := by
            by_contra hne
            simp [hne] at h
          exact ih2.1 hb i (by omega)
      · intro h
        have h1 := h k (by omega)
        have hb : b = true := ih2.2 (fun i hi => h i (by omega))
        simp [h1, hb]

/-- C14: the chain-wide `setBrightness(duty)` sends one command frame to each of
the displays `0 .. numberOfDisplays - 1`, in that order and whatever the earlier
outcomes, changes nothing but the bus, and returns `true` exactly when every one
of these transmissions is acknowledged. -/
theorem setBrightness_all_chips (ALPHA_CMD_DIMMING_SETUP : Nat) (s : Driver) (duty : Nat)
    (_hn : 1 ≤ s.numberOfDisplays ∧ s.numberOfDisplays ≤ 4) :
    (setBrightness ALPHA_CMD_DIMMING_SETUP s duty).2 =
      { s with _i2cPort :=
          { s._i2cPort with
            sent := s._i2cPort.sent ++
              List.map (fun i => (lookUpDisplayAddress s i,
                [(ALPHA_CMD_DIMMING_SETUP ||| (if duty > 15 then 15 else duty)) % 256]))
                (List.range s.numberOfDisplays) } } ∧
    ((setBrightness ALPHA_CMD_DIMMING_SETUP s duty).1 = true ↔
      ∀ i, i < s.numberOfDisplays →
        s._i2cPort.nack (s._i2cPort.sent.length + i) (lookUpDisplayAddress s i) = false) :=
  chain_fold (setBrightnessStep ALPHA_CMD_DIMMING_SETUP duty)
    (fun _ _ => (ALPHA_CMD_DIMMING_SETUP ||| (if duty > 15 then 15 else duty)) % 256)
    (fun _ _ => []) (fun _ _ => rfl) (fun _ _ _ => rfl) (fun _ _ _ => rfl) s s.numberOfDisplays

/-- C14, an instance: four displays of which display 2 does not acknowledge;
all four frames are sent and the call returns `false`. -/
theorem setBrightness_all_chips_witness :
    (setBrightness 0xE0 fourChips 16).2._i2cPort.sent
      = [(0x70, [0xEF]), (0x71, [0xEF]), (0x72, [0xEF]), (0x73, [0xEF])] ∧
    (setBrightness 0xE0 fourChips 16).1 = false :=
  have h := setBrightness_all_chips 0xE0 fourChips 16 (by decide)
  ⟨(congrArg (fun t => t._i2cPort.sent) h.1).trans (by decide),
    Bool.eq_false_iff.2 (fun ht => absurd (h.2.1 ht 2 (by decide)) (by decide))⟩

/-- C15: `updateDisplay()` sends one frame to each of the displays
`0 .. numberOfDisplays - 1` in order, each holding the register 0 followed by
the 16 RAM bytes of that display, whatever the earlier outcomes; it changes
nothing but the bus, so the RAM image and the cursor are unchanged, and it
returns `true` exactly when every transmission is acknowledged. -/
theorem updateDisplay_pushes_image (s : Driver)
    (_hn : 1 ≤ s.numberOfDisplays ∧ s.numberOfDisplays ≤ 4) :
    (updateDisplay s).2 =
      { s with _i2cPort :=
          { s._i2cPort with
            sent := s._i2cPort.sent ++
              List.map (fun i => (lookUpDisplayAddress s i,
                0 :: List.map (fun j => s.displayRAM (i * 16 + j)) (List.range 16)))
                (List.range s.numberOfDisplays) } } ∧
    (updateDisplay s).2._i2cPort.sent.length = s._i2cPort.sent.length + s.numberOfDisplays ∧
    (updateDisplay s).2.displayRAM = s.displayRAM ∧
    (updateDisplay s).2.digitPosition = s.digitPosition ∧
    ((updateDisplay s).1 = true ↔
      ∀ i, i < s.numberOfDisplays →
        s._i2cPort.nack (s._i2cPort.sent.length + i) (lookUpDisplayAddress s i) = false) := by
  have h := chain_fold updateDisplayStep (fun _ _ => 0)
    (fun t i => List.map (fun j => t.displayRAM (i * 16 + j)) (List.range 16))
    (fun _ _ => rfl) (fun _ _ _ => rfl) (fun _ _ _ => rfl) s s.numberOfDisplays
  refine ⟨h.1, ?_, ?_, ?_, h.2⟩
  · have h1 := congrArg (fun t => t._i2cPort.sent.length) h.1
    simp only [List.length_append, List.length_map, List.length_range] at h1
    exact h1
  · exact updateDisplay_frame (fun s => s.displayRAM) (fun _ _ => rfl) s
  · exact updateDisplay_frame (fun s => s.digitPosition) (fun _ _ => rfl) s

/-- C15, an instance: four displays of which display 2 does not acknowledge. -/
theorem updateDisplay_pushes_image_witness :
    (updateDisplay fourChips).2._i2cPort.sent.length = 4 ∧
    (updateDisplay fourChips).2._i2cPort.sent.map (fun f => f.1) = [0x70, 0x71, 0x72, 0x73] ∧
    (updateDisplay fourChips).2.displayRAM = fourChips.displayRAM ∧
    (updateDisplay fourChips).1 = false :=
  have h := updateDisplay_pushes_image fourChips (by decide)
  ⟨h.2.1, (congrArg (fun t => t._i2cPort.sent.map (fun f => f.1)) h.1).trans (by decide),
    h.2.2.1,
    Bool.eq_false_iff.2 (fun ht => absurd (h.2.2.2.2.1 ht 2 (by decide)) (by decide))⟩

/-! ## The shadow after writing a buffer -/

theorem printChar_displayContent (s : Driver) (c d : Nat) :
    (printChar s c d).displayContent = s.displayContent :=
  printChar_frame (fun s => s.displayContent) (fun _ _ => rfl) (fun _ _ => rfl)
    (fun _ _ => rfl) (fun _ _ => rfl) s c d

theorem writeBufferStep_displayContent (s : Driver) (c : Nat) :
    (writeBufferStep s c).displayContent =
      if c = 46 ∨ c = 58 then s.displayContent
      else fun a => if a = s.digitPosition then c else s.displayContent a := by
  unfold writeBufferStep
  by_cases h1 : c = 46
  · simp [h1, printChar_displayContent]
  · by_cases h2 : c = 58
    · simp [h2, printChar_displayContent]
    · simp [h1, h2, printChar_displayContent, printChar_digitPosition]

theorem foldl_writeBufferStep_displayContent (buf : List Nat) (s : Driver) (j0 : Nat)
    (hn : 1 ≤ s.numberOfDisplays ∧ s.numberOfDisplays ≤ 4)
    (hp : s.digitPosition = j0 % (4 * s.numberOfDisplays)) :
    (buf.foldl writeBufferStep s).displayContent =
      applyStores s.displayContent
        (List.map (fun p => (p.1 % (4 * s.numberOfDisplays), p.2))
          (List.enumFrom j0 (buf.filter (fun x => decide (x ≠ 46 ∧ x ≠ 58))))) := by
  induction buf generalizing s j0 with
  | nil => rfl
  | cons c buf ih =>
    have hN := writeBufferStep_numberOfDisplays s c
    have hP := writeBufferStep_digitPosition s c
    have hC := writeBufferStep_displayContent s c
    have hpos : 0 < 4 * s.numberOfDisplays := by omega
    have hlt : s.digitPosition < 4 * s.numberOfDisplays := by rw [hp]; exact Nat.mod_lt _ hpos
    rw [List.foldl_cons]
    by_cases hc : c = 46 ∨ c = 58
    · rw [if_pos hc] at hP hC
      have hf : List.filter (fun x => decide (x ≠ 46 ∧ x ≠ 58)) (c :: buf)
          = List.filter (fun x => decide (x ≠ 46 ∧ x ≠ 58)) buf := by
        rw [List.filter_cons, if_neg]
        simp only [decide_eq_true_eq]; omega
      rw [ih (writeBufferStep s c) j0 (by rw [hN]; exact hn) (by rw [hN, hP]; exact hp),
        hN, hC, hf]
    · rw [if_neg hc] at hP hC
      have hf : List.filter (fun x => decide (x ≠ 46 ∧ x ≠ 58)) (c :: buf)
          = c :: List.filter (fun x => decide (x ≠ 46 ∧ x ≠ 58)) buf := by
        rw [List.filter_cons, if_pos]
        simp only [decide_eq_true_eq]; omega
      have hP2 : (writeBufferStep s c).digitPosition = (j0 + 1) % (4 * s.numberOfDisplays) := by
        rw [hP, Nat.mod_eq_of_lt (by omega : s.digitPosition + 1 < 256), Nat.mul_comm, hp,
          Nat.mod_add_mod]
      rw [ih (writeBufferStep s c) (j0 + 1) (by rw [hN]; exact hn) (by rw [hN, hP2]),
        hN, hC, hf, List.enumFrom_cons, List.map_cons, hp]
      rfl

theorem applyStores_enumFrom (l : List Nat) (j0 N : Nat) (content : Nat → Nat)
    (h : j0 + l.length ≤ N) (a : Nat) :
    applyStores content (List.map (fun p => (p.1 % N, p.2)) (List.enumFrom j0 l)) a =
      if j0 ≤ a ∧ a < j0 + l.length then l.getD (a - j0) 0 else content a := by
  induction l generalizing j0 content with
  | nil =>
    rw [if_neg (by simp only [List.length_nil]; omega)]
    rfl
  | cons c l ih =>
    simp only [List.length_cons] at h
    rw [List.enumFrom_cons, List.map_cons]
    show applyStores (fun a => if a = j0 % N then c else content a) _ a = _
    rw [ih (j0 + 1) _ (by omega), Nat.mod_eq_of_lt (by omega : j0 < N)]
    by_cases h1 : a = j0
    · subst h1
      rw [if_neg (by omega), if_pos rfl, if_pos ⟨le_refl _, by simp only [List.length_cons]; omega⟩]
      simp
    · by_cases h2 : j0 + 1 ≤ a ∧ a < j0 + 1 + l.length
      · have h3 : j0 ≤ a ∧ a < j0 + (c :: l).length := by
          simp only [List.length_cons]; omega
        have h4 : a - j0 = (a - (j0 + 1)) + 1 := by omega
        rw [if_pos h2, if_pos h3, h4, List.getD_cons_succ]
      · have h3 : ¬ (j0 ≤ a ∧ a < j0 + (c :: l).length) := by
          simp only [List.length_cons]; omega
        rw [if_neg h2, if_neg h3, if_neg h1]

/-- C18: `write(buffer, size)` returns `size`; for an arbitrary buffer the shadow
afterwards is the old shadow with the bytes other than '.' and ':' stored in
order, the j-th of them at position `j mod 4n`; when the buffer holds no '.' and
no ':' and at most `4n` bytes, the shadow holds byte `i` at `i` for every
`i < size` and is unchanged at every other index. -/
theorem writeBuffer_shadow (s : Driver) (buf buf2 : List Nat)
    (hn : 1 ≤ s.numberOfDisplays ∧ s.numberOfDisplays ≤ 4)
    (hsp : ∀ c ∈ buf, c ≠ 46 ∧ c ≠ 58)
    (hlen : buf.length ≤ 4 * s.numberOfDisplays) :
    (∀ i c, buf[i]? = some c → (writeBuffer s buf).2.displayContent i = c) ∧
    (∀ i, buf.length ≤ i → (writeBuffer s buf).2.displayContent i = s.displayContent i) ∧
    (writeBuffer s buf).1 = buf.length ∧
    (writeBuffer s buf2).1 = buf2.length ∧
    (writeBuffer s buf2).2.displayContent =
      applyStores s.displayContent
        (List.map (fun p => (p.1 % (4 * s.numberOfDisplays), p.2))
          (List.enumFrom 0 (buf2.filter (fun x => decide (x ≠ 46 ∧ x ≠ 58))))) := by
  have hN : ({ zeroDisplayRAM s with digitPosition := 0 } : Driver).numberOfDisplays
      = s.numberOfDisplays := by rw [zeroDisplayRAM_eq]
  have hC : ({ zeroDisplayRAM s with digitPosition := 0 } : Driver).displayContent
      = s.displayContent := by rw [zeroDisplayRAM_eq]
  have gen : ∀ b : List Nat, (writeBuffer s b).2.displayContent =
      applyStores s.displayContent
        (List.map (fun p => (p.1 % (4 * s.numberOfDisplays), p.2))
          (List.enumFrom 0 (b.filter (fun x => decide (x ≠ 46 ∧ x ≠ 58))))) := by
    intro b
    have h1 : (writeBuffer s b).2.displayContent
        = (b.foldl writeBufferStep { zeroDisplayRAM s with digitPosition := 0 }).displayContent :=
      updateDisplay_frame (fun s => s.displayContent) (fun _ _ => rfl) _
    rw [h1, foldl_writeBufferStep_displayContent b _ 0 (by rw [hN]; exact hn)
      (by rw [Nat.zero_mod]), hN, hC]
  have hfil : buf.filter (fun x => decide (x ≠ 46 ∧ x ≠ 58)) = buf := by
    rw [List.filter_eq_self]
    intro c hc
    have := hsp c hc
    simp only [decide_eq_true_eq]
    exact this
  have key : ∀ i, (writeBuffer s buf).2.displayContent i =
      if i < buf.length then buf.getD i 0 else s.displayContent i := by
    intro i
    rw [gen buf, hfil, applyStores_enumFrom buf 0 _ _ (by omega) i]
    simp
  refine ⟨?_, ?_, rfl, rfl, gen buf2⟩
  · intro i c hic
    obtain ⟨hlt, hget⟩ := List.getElem?_eq_some_iff.1 hic
    rw [key i, if_pos hlt, List.getD_eq_getElem _ _ hlt, hget]
  · intro i hge
    rw [key i, if_neg (by omega)]

/-- C18, an instance: "AB" and "A.B:CDE" written on the sample driver. -/
theorem writeBuffer_shadow_witness :
    (writeBuffer fresh [65, 66]).2.displayContent 0 = 65 ∧
    (writeBuffer fresh [65, 66]).2.displayContent 1 = 66 ∧
    (writeBuffer fresh [65, 66]).2.displayContent 2 = fresh.displayContent 2 ∧
    (writeBuffer fresh [65, 66]).1 = 2 ∧
    (writeBuffer fresh [65, 46, 66, 58, 67, 68, 69]).2.displayContent =
      applyStores fresh.displayContent [(0, 65), (1, 66), (2, 67), (3, 68), (0, 69)] :=
  have h := writeBuffer_shadow fresh [65, 66] [65, 46, 66, 58, 67, 68, 69] (by decide)
    (by decide) (by decide)
  ⟨h.1 0 65 rfl, h.1 1 66 rfl, h.2.1 2 (by decide), h.2.2.1, h.2.2.2.2⟩

/-! ## The address computation is injective -/

theorem illuminateChar_masked (s : Driver) (m digit : Nat) :
    illuminateChar s m digit = illuminateChar s (m &&& 0x3FFF) digit := by
  unfold illuminateChar
  apply List.foldl_ext
  intro acc i hi
  have hi14 : i < 14 := List.mem_range.1 hi
  have hbit : (m &&& 0x3FFF).testBit i = m.testBit i := by
    rw [Nat.testBit_and, show (0x3FFF : Nat) = 2 ^ 14 - 1 from rfl, Nat.testBit_two_pow_sub_one]
    simp [hi14]
  by_cases h : m.testBit i = true
  · rw [if_pos ((shift_and_one m i).2 h), if_pos ((shift_and_one _ i).2 (hbit.trans h))]
  · rw [if_neg (fun e => h ((shift_and_one m i).1 e)),
      if_neg (fun e => h (hbit.symm.trans ((shift_and_one _ i).1 e)))]

/-- C19: for segment letters in 'A'..'N' and digits below 16, equal (byte
offset, bit) pairs come from equal letters and equal digits; and for every
16-bit mask `m`, `illuminateChar(m, d)` on an all-zero image followed by
decoding digit `d` gives `m & 0x3FFF`. -/
theorem segment_address_injective (segment1 segment2 d1 d2 : Nat) (s : Driver) (m d : Nat)
    (h1 : 65 ≤ segment1 ∧ segment1 ≤ 78) (h2 : 65 ≤ segment2 ∧ segment2 ≤ 78)
    (hd1 : d1 < 16) (hd2 : d2 < 16) (hd : d < 16) (_hm : m < 65536)
    (hz : ∀ a, s.displayRAM a = 0) :
    (illuminateSegmentTarget segment1 d1 = illuminateSegmentTarget segment2 d2 →
      segment1 = segment2 ∧ d1 = d2) ∧
    decodedMask (illuminateChar s m d).displayRAM d = m &&& 0x3FFF := by
  constructor
  · intro h
    obtain ⟨i, rfl⟩ : ∃ i, segment1 = 65 + i := ⟨segment1 - 65, by omega⟩
    obtain ⟨i2, rfl⟩ : ∃ i, segment2 = 65 + i := ⟨segment2 - 65, by omega⟩
    have := target_inj i i2 d1 d2 (by omega) (by omega) (by omega) (by omega) h
    omega
  · have hlt : m &&& 0x3FFF < 16384 := Nat.lt_of_le_of_lt Nat.and_le_right (by decide)
    rw [illuminateChar_masked,
      decodedMask_illuminateChar s _ d d hlt (by omega) (by omega), if_pos rfl,
      decodedMask_zero s.displayRAM 4 d (by omega) (le_refl _) (fun a _ => hz a), Nat.zero_or]

/-- C19, an instance: 'H' and 'I' of digit 5, and the mask 0xFFFF at digit 5. -/
theorem segment_address_injective_witness :
    (illuminateSegmentTarget 72 5 = illuminateSegmentTarget 73 5 → 72 = 73 ∧ 5 = 5) ∧
    decodedMask (illuminateChar fresh 0xFFFF 5).displayRAM 5 = 0xFFFF &&& 0x3FFF :=
  segment_address_injective 72 73 5 5 fresh 0xFFFF 5 (by decide) (by decide) (by decide)
    (by decide) (by decide) (by decide) (fun _ => rfl)

/-! ## Segment bits and status bits -/

theorem illuminateSegment_odd (s : Driver) (segment digit a : Nat) (ha : a % 2 = 1) :
    (illuminateSegment s segment digit).displayRAM a = s.displayRAM a := by
  have he := target_even segment digit
  show (if a = (illuminateSegmentTarget segment digit).1 then _ else s.displayRAM a) = _
  rw [if_neg (by omega)]

theorem illuminateChar_odd (s : Driver) (m digit a : Nat) (ha : a % 2 = 1) :
    (illuminateChar s m digit).displayRAM a = s.displayRAM a := by
  unfold illuminateChar
  generalize List.range 14 = l
  induction l generalizing s with
  | nil => rfl
  | cons i l ih =>
    rw [List.foldl_cons, ih]
    split_ifs
    · exact illuminateSegment_odd _ _ _ _ ha
    · rfl

theorem illuminateSegmentTarget_row (segment digit : Nat) :
    illuminateSegmentTarget segment digit =
      (if segmentRow segment digit > 7
        then ((segmentCom segment * 2 + digit / 4 * 16 % 256) % 256 + 1) % 256
        else (segmentCom segment * 2 + digit / 4 * 16 % 256) % 256,
       if segmentRow segment digit > 7 then segmentRow segment digit - 8
        else segmentRow segment digit) := rfl

/-- C20: the row `illuminateSegment` computes is at most 7 for every segment
letter and digit, so the increment for `row > 7` is never made and the byte
offset is even; `illuminateChar` leaves every byte at an odd offset unchanged,
among them the decimal byte `3 + 16k` and the colon byte `1 + 16k`; and setting
or clearing the decimal or the colon flag changes no digit's decoded mask. -/
theorem segments_and_status_disjoint (s : Driver) (segment digit m k : Nat) (b : Bool) :
    segmentRow segment digit ≤ 7 ∧
    (illuminateSegmentTarget segment digit).1
      = (segmentCom segment * 2 + digit / 4 * 16 % 256) % 256 ∧
    (illuminateSegmentTarget segment digit).1 % 2 = 0 ∧
    (∀ a, a % 2 = 1 → (illuminateChar s m digit).displayRAM a = s.displayRAM a) ∧
    (illuminateChar s m digit).displayRAM (3 + 16 * k) = s.displayRAM (3 + 16 * k) ∧
    (illuminateChar s m digit).displayRAM (1 + 16 * k) = s.displayRAM (1 + 16 * k) ∧
    (∀ d, decodedMask (setDecimalOnOff s k b).2.displayRAM d = decodedMask s.displayRAM d) ∧
    (∀ d, decodedMask (setColonOnOff s k b).2.displayRAM d = decodedMask s.displayRAM d) := by
  have hrow : segmentRow segment digit ≤ 7 := by
    have h4 : digit % 4 < 4 := Nat.mod_lt _ (by decide)
    unfold segmentRow
    simp only
    split_ifs <;> omega
  refine ⟨hrow, ?_, target_even _ _, fun a ha => illuminateChar_odd s m digit a ha,
    illuminateChar_odd s m digit _ (by omega), illuminateChar_odd s m digit _ (by omega),
    ?_, ?_⟩
  · rw [illuminateSegmentTarget_row, if_neg (by omega)]
  · intro d
    apply decodedMask_congr_even
    intro a j ha _
    rw [setDecimalOnOff_displayRAM]
    simp only
    rw [if_neg (by omega)]
  · intro d
    apply decodedMask_congr_even
    intro a j ha _
    rw [setColonOnOff_displayRAM]
    simp only
    rw [if_neg (by omega)]

/-! ## Switching the decimal and the colon off -/

theorem or_zero_byte {x : Nat} (hx : x < 256) : (x ||| 0) % 256 = x := by
  rw [Nat.or_zero]
  exact Nat.mod_eq_of_lt hx

theorem setDecimalOnOff_false_displayRAM (s : Driver) (k : Nat)
    (hram : ∀ a, s.displayRAM a < 256) :
    (setDecimalOnOff s k false).2.displayRAM = s.displayRAM := by
  rw [setDecimalOnOff_displayRAM]
  funext a
  simp only [Bool.false_eq_true, if_false]
  split_ifs
  · exact or_zero_byte (hram a)
  · rfl

theorem setColonOnOff_false_displayRAM (s : Driver) (k : Nat)
    (hram : ∀ a, s.displayRAM a < 256) :
    (setColonOnOff s k false).2.displayRAM = s.displayRAM := by
  rw [setColonOnOff_displayRAM]
  funext a
  simp only [Bool.false_eq_true, if_false]
  split_ifs
  · exact or_zero_byte (hram a)
  · rfl

theorem foldl_decimalOffStep_displayRAM (l : List Nat) (acc : Bool × Driver)
    (hram : ∀ a, acc.2.displayRAM a < 256) :
    (l.foldl decimalOffStep acc).2.displayRAM = acc.2.displayRAM := by
  induction l generalizing acc with
  | nil => rfl
  | cons i l ih =>
    have h1 : (decimalOffStep acc i).2.displayRAM = acc.2.displayRAM :=
      setDecimalOnOff_false_displayRAM acc.2 i hram
    rw [List.foldl_cons, ih _ (by rw [h1]; exact hram), h1]

theorem foldl_colonOffStep_displayRAM (l : List Nat) (acc : Bool × Driver)
    (hram : ∀ a, acc.2.displayRAM a < 256) :
    (l.foldl colonOffStep acc).2.displayRAM = acc.2.displayRAM := by
  induction l generalizing acc with
  | nil => rfl
  | cons i l ih =>
    have h1 : (colonOffStep acc i).2.displayRAM = acc.2.displayRAM :=
      setColonOnOff_false_displayRAM acc.2 i hram
    rw [List.foldl_cons, ih _ (by rw [h1]; exact hram), h1]

theorem foldl_writeBufferStep_odd (buf : List Nat) (s : Driver) (a : Nat) (ha : a % 2 = 1)
    (hsp : ∀ c ∈ buf, c ≠ 46 ∧ c ≠ 58) :
    (buf.foldl writeBufferStep s).displayRAM a = s.displayRAM a := by
  induction buf generalizing s with
  | nil => rfl
  | cons c buf ih =>
    have hc := hsp c (List.mem_cons_self _ _)
    rw [List.foldl_cons, ih _ (fun x hx => hsp x (List.mem_cons_of_mem _ hx)),
      writeBufferStep_displayRAM s c hc.1 hc.2, illuminateChar_odd _ _ _ _ ha]

theorem writeBuffer_status_zero (s : Driver) (buf : List Nat) (a : Nat) (ha : a % 2 = 1)
    (hlt : a < 16 * s.numberOfDisplays) (hsp : ∀ c ∈ buf, c ≠ 46 ∧ c ≠ 58) :
    (writeBuffer s buf).2.displayRAM a = 0 := by
  have h1 : (writeBuffer s buf).2.displayRAM
      = (buf.foldl writeBufferStep { zeroDisplayRAM s with digitPosition := 0 }).displayRAM :=
    updateDisplay_frame (fun s => s.displayRAM) (fun _ _ => rfl) _
  rw [h1, foldl_writeBufferStep_odd buf _ a ha hsp, zeroDisplayRAM_eq]
  simp [hlt]

theorem setOnOff_keeps_bits (x j : Nat) (dat : Nat) (hj : j < 8)
    (h : x.testBit j = true) : ((x ||| dat) % 256).testBit j = true := by
  show ((x ||| dat) % 2 ^ 8).testBit j = true
  rw [Nat.testBit_mod_two_pow, Nat.testBit_or, h]
  simp [hj]

theorem printChar_keeps_bits (s : Driver) (c d a j : Nat) (hj : j < 8)
    (h : (s.displayRAM a).testBit j = true) :
    ((printChar s c d).displayRAM a).testBit j = true := by
  unfold printChar
  simp only
  apply (illuminateChar_testBit _ _ _ _ _ hj).2
  apply Or.inl
  have h1 : ((if characterPosition c = 14
      then (decimalOnSingle s (s.digitPosition / 4 % 256)).2 else s).displayRAM a).testBit j
      = true := by
    split_ifs
    · rw [decimalOnSingle, setDecimalOnOff_displayRAM]
      simp only
      split_ifs
      · exact setOnOff_keeps_bits _ _ _ hj h
      · exact h
    · exact h
  split_ifs at h1 ⊢
  · rw [colonOnSingle, setColonOnOff_displayRAM]
    simp only
    split_ifs
    · exact setOnOff_keeps_bits _ _ _ hj h1
    · exact h1
  · rw [colonOnSingle, setColonOnOff_displayRAM]
    simp only
    split_ifs
    · exact setOnOff_keeps_bits _ _ _ hj h1
    · exact h1
  · exact h1
  · exact h1

theorem write_keeps_bits (s : Driver) (b a j : Nat) (hj : j < 8)
    (h : (s.displayRAM a).testBit j = true) :
    ((write s b).2.displayRAM a).testBit j = true := by
  unfold write
  simp only
  rw [updateDisplay_frame (fun s => s.displayRAM) (fun _ _ => rfl)]
  split_ifs
  · exact printChar_keeps_bits s b 0 a j hj h
  · exact printChar_keeps_bits _ b _ a j hj h

/-- C21: on a RAM image of bytes, `setDecimalOnOff(k, false)` and
`setColonOnOff(k, false)`, hence `decimalOffSingle`, `colonOffSingle`,
`decimalOff` and `colonOff`, leave the RAM image unchanged, so a status bit that
was set stays set; `write(b)` clears no bit either; `clear()` zeroes the two
status bytes of display `k`, and so does `write(buffer, size)` for a buffer
without '.' and ':'. -/
theorem status_off_keeps_image (s : Driver) (k : Nat) (buf : List Nat)
    (_hn : 1 ≤ s.numberOfDisplays ∧ s.numberOfDisplays ≤ 4) (hk : k < s.numberOfDisplays)
    (hram : ∀ a, s.displayRAM a < 256) (hsp : ∀ c ∈ buf, c ≠ 46 ∧ c ≠ 58) :
    (setDecimalOnOff s k false).2.displayRAM = s.displayRAM ∧
    (setColonOnOff s k false).2.displayRAM = s.displayRAM ∧
    (decimalOffSingle s k).2.displayRAM = s.displayRAM ∧
    (colonOffSingle s k).2.displayRAM = s.displayRAM ∧
    (decimalOff s).2.displayRAM = s.displayRAM ∧
    (colonOff s).2.displayRAM = s.displayRAM ∧
    ((s.displayRAM (3 + 16 * k)).testBit 0 = true →
      ((decimalOff s).2.displayRAM (3 + 16 * k)).testBit 0 = true) ∧
    ((s.displayRAM (1 + 16 * k)).testBit 0 = true →
      ((colonOff s).2.displayRAM (1 + 16 * k)).testBit 0 = true) ∧
    (∀ b a j, j < 8 → (s.displayRAM a).testBit j = true →
      ((write s b).2.displayRAM a).testBit j = true) ∧
    (clear s).2.displayRAM (3 + 16 * k) = 0 ∧
    (clear s).2.displayRAM (1 + 16 * k) = 0 ∧
    (writeBuffer s buf).2.displayRAM (3 + 16 * k) = 0 ∧
    (writeBuffer s buf).2.displayRAM (1 + 16 * k) = 0 := by
  have hd : (decimalOff s).2.displayRAM = s.displayRAM :=
    foldl_decimalOffStep_displayRAM _ (true, { s with decimalOnOff := false }) hram
  have hc : (colonOff s).2.displayRAM = s.displayRAM :=
    foldl_colonOffStep_displayRAM _ (true, { s with colonOnOff := false }) hram
  obtain ⟨_, _, _, _, cR⟩ := clear_fields s
  refine ⟨setDecimalOnOff_false_displayRAM s k hram, setColonOnOff_false_displayRAM s k hram,
    setDecimalOnOff_false_displayRAM s k hram, setColonOnOff_false_displayRAM s k hram,
    hd, hc, ?_, ?_, fun b a j hj h => write_keeps_bits s b a j hj h, ?_, ?_, ?_, ?_⟩
  · intro h; rw [hd]; exact h
  · intro h; rw [hc]; exact h
  · rw [cR]; simp only; rw [if_pos (by omega)]
  · rw [cR]; simp only; rw [if_pos (by omega)]
  · exact writeBuffer_status_zero s buf _ (by omega) (by omega) hsp
  · exact writeBuffer_status_zero s buf _ (by omega) (by omega) hsp

/-- C21, an instance: the sample driver with the decimal and the colon of
display 0 lit, and the buffer "AB". -/
theorem status_off_keeps_image_witness :
    (setDecimalOnOff statusLit 0 false).2.displayRAM = statusLit.displayRAM ∧
    (setColonOnOff statusLit 0 false).2.displayRAM = statusLit.displayRAM ∧
    (decimalOffSingle statusLit 0).2.displayRAM = statusLit.displayRAM ∧
    (colonOffSingle statusLit 0).2.displayRAM = statusLit.displayRAM ∧
    (decimalOff statusLit).2.displayRAM = statusLit.displayRAM ∧
    (colonOff statusLit).2.displayRAM = statusLit.displayRAM ∧
    ((statusLit.displayRAM (3 + 16 * 0)).testBit 0 = true →
      ((decimalOff statusLit).2.displayRAM (3 + 16 * 0)).testBit 0 = true) ∧
    ((statusLit.displayRAM (1 + 16 * 0)).testBit 0 = true →
      ((colonOff statusLit).2.displayRAM (1 + 16 * 0)).testBit 0 = true) ∧
    (∀ b a j, j < 8 → (statusLit.displayRAM a).testBit j = true →
      ((write statusLit b).2.displayRAM a).testBit j = true) ∧
    (clear statusLit).2.displayRAM (3 + 16 * 0) = 0 ∧
    (clear statusLit).2.displayRAM (1 + 16 * 0) = 0 ∧
    (writeBuffer statusLit [65, 66]).2.displayRAM (3 + 16 * 0) = 0 ∧
    (writeBuffer statusLit [65, 66]).2.displayRAM (1 + 16 * 0) = 0 :=
  status_off_keeps_image statusLit 0 [65, 66] (by decide) (by decide)
    (by
      intro a
      show (if a = 3 ∨ a = 1 then 1 else 0) < 256
      split_ifs <;> decide)
    (by decide)

/-! ## System clock -/

/-- C22, the code: the chain-wide `disableSystemClock()` sends to every display
the command byte `ALPHA_CMD_SYSTEM_SETUP | 1` of `enableSystemClockSingle`, and
ends in the state `enableSystemClock()` ends in; when bit 0 of the command code
is clear, as the use of that bit for the clock requires, its bus trace differs
from that of `disableSystemClockSingle` on the displays in order, which sends
`ALPHA_CMD_SYSTEM_SETUP | 0`. -/
theorem disableSystemClock_enables (ALPHA_CMD_SYSTEM_SETUP : Nat) (s : Driver)
    (hn : 1 ≤ s.numberOfDisplays ∧ s.numberOfDisplays ≤ 4)
    (hC : ALPHA_CMD_SYSTEM_SETUP % 2 = 0) :
    (disableSystemClock ALPHA_CMD_SYSTEM_SETUP s).2._i2cPort.sent =
      s._i2cPort.sent ++
        List.map (fun i => (lookUpDisplayAddress s i, [(ALPHA_CMD_SYSTEM_SETUP ||| 1) % 256]))
          (List.range s.numberOfDisplays) ∧
    (standbyEachDisplay ALPHA_CMD_SYSTEM_SETUP s).2._i2cPort.sent =
      s._i2cPort.sent ++
        List.map (fun i => (lookUpDisplayAddress s i, [(ALPHA_CMD_SYSTEM_SETUP ||| 0) % 256]))
          (List.range s.numberOfDisplays) ∧
    disableSystemClock ALPHA_CMD_SYSTEM_SETUP s = enableSystemClock ALPHA_CMD_SYSTEM_SETUP s ∧
    (disableSystemClock ALPHA_CMD_SYSTEM_SETUP s).2._i2cPort.sent
      ≠ (standbyEachDisplay ALPHA_CMD_SYSTEM_SETUP s).2._i2cPort.sent := by
  have h1 := chain_fold (disableSystemClockStep ALPHA_CMD_SYSTEM_SETUP)
    (fun _ _ => (ALPHA_CMD_SYSTEM_SETUP ||| 1) % 256) (fun _ _ => [])
    (fun _ _ => rfl) (fun _ _ _ => rfl) (fun _ _ _ => rfl) s s.numberOfDisplays
  have h2 := chain_fold (standbyEachDisplayStep ALPHA_CMD_SYSTEM_SETUP)
    (fun _ _ => (ALPHA_CMD_SYSTEM_SETUP ||| 0) % 256) (fun _ _ => [])
    (fun _ _ => rfl) (fun _ _ _ => rfl) (fun _ _ _ => rfl) s s.numberOfDisplays
  have e1 := congrArg (fun t => t._i2cPort.sent) h1.1
  have e2 := congrArg (fun t => t._i2cPort.sent) h2.1
  simp only at e1 e2
  refine ⟨e1, e2, rfl, ?_⟩
  show (disableSystemClock ALPHA_CMD_SYSTEM_SETUP s).2._i2cPort.sent
    ≠ (standbyEachDisplay ALPHA_CMD_SYSTEM_SETUP s).2._i2cPort.sent
  unfold disableSystemClock standbyEachDisplay
  rw [e1, e2]
  intro h
  have h3 := List.append_cancel_left h
  have h4 := (List.map_inj_left.1 h3) 0 (List.mem_range.2 (by omega))
  simp only [Prod.mk.injEq, List.cons.injEq, and_true, true_and] at h4
  have h5 : ((ALPHA_CMD_SYSTEM_SETUP ||| 1) % 2 ^ 8).testBit 0
      = ((ALPHA_CMD_SYSTEM_SETUP ||| 0) % 2 ^ 8).testBit 0 := congrArg (fun x => x.testBit 0) h4
  rw [Nat.testBit_mod_two_pow, Nat.testBit_mod_two_pow, Nat.testBit_or, Nat.or_zero,
    Nat.testBit_zero, Nat.testBit_zero] at h5
  simp [hC] at h5

/-- C22, an instance: one display and the command code 0x20; the frame sent is
0x21, where `disableSystemClockSingle` sends 0x20. -/
theorem disableSystemClock_enables_witness :
    (disableSystemClock 0x20 fresh).2._i2cPort.sent = [(0x70, [0x21])] ∧
    (standbyEachDisplay 0x20 fresh).2._i2cPort.sent = [(0x70, [0x20])] ∧
    (disableSystemClock 0x20 fresh).2._i2cPort.sent
      ≠ (standbyEachDisplay 0x20 fresh).2._i2cPort.sent :=
  have h := disableSystemClock_enables 0x20 fresh (by decide) (by decide)
  ⟨h.1.trans (by decide), h.2.1.trans (by decide), h.2.2.2⟩

/-! ## The shadow survives `clear` -/

/-- C23: `clear()` leaves the shadow and the override list unchanged, so the
shadow array that a following `shiftLeft(k)` or `shiftRight(k)` computes, and
the string it hands to `print`, are those computed from the shadow before the
clear. -/
theorem clear_keeps_shadow (s : Driver) (k : Nat) :
    (clear s).2.displayContent = s.displayContent ∧
    (∀ i, (clear s).2.displayContent i = s.displayContent i) ∧
    (clear s).2.pCharDefList = s.pCharDefList ∧
    shiftLeftShadow (clear s).2.numberOfDisplays k (clear s).2.displayContent
      = shiftLeftShadow s.numberOfDisplays k s.displayContent ∧
    shiftRightShadow (clear s).2.numberOfDisplays k (clear s).2.displayContent
      = shiftRightShadow s.numberOfDisplays k s.displayContent ∧
    cString (shiftLeftShadow (clear s).2.numberOfDisplays k
        (clear s).2.displayContent).displayContent
      = cString (shiftLeftShadow s.numberOfDisplays k s.displayContent).displayContent := by
  obtain ⟨cN, _, cL, cC, _⟩ := clear_fields s
  refine ⟨cC, fun i => by rw [cC], cL, ?_, ?_, ?_⟩
  · rw [cN, cC]
  · rw [cN, cC]
  · rw [cN, cC]

/-- C23, an instance: "TEST" is written on one chip and the display is
cleared; the shadow that `shiftLeft(1)` then computes is "EST ", and that is
the string it prints. -/
theorem clear_keeps_shadow_witness :
    (shiftLeftShadow (clear (writeBuffer fresh [84, 69, 83, 84]).2).2.numberOfDisplays 1
      (clear (writeBuffer fresh [84, 69, 83, 84]).2).2.displayContent).displayContent 0 = 69 ∧
    cString (shiftLeftShadow (clear (writeBuffer fresh [84, 69, 83, 84]).2).2.numberOfDisplays 1
      (clear (writeBuffer fresh [84, 69, 83, 84]).2).2.displayContent).displayContent
      = [69, 83, 84, 32] :=
  have h := clear_keeps_shadow (writeBuffer fresh [84, 69, 83, 84]).2 1
  ⟨(congrArg (fun r => r.displayContent 0) h.2.2.2.1).trans (by decide),
    h.2.2.2.2.2.trans (by decide)⟩

/-! ## Indexing stays inside the RAM image -/

theorem characterPosition_eq_14 {c : Nat} (h : characterPosition c = 14) : c = 46 := by
  unfold characterPosition at h
  split_ifs at h <;> omega

theorem characterPosition_eq_26 {c : Nat} (h : characterPosition c = 26) : c = 58 := by
  unfold characterPosition at h
  split_ifs at h <;> omega

/-- What `printChar` does to a RAM byte at an odd offset: only the status byte
of the display the cursor is on is changed, and only for '.' and ':'. -/
theorem printChar_odd (t : Driver) (c d a : Nat) (ha : a % 2 = 1) :
    (printChar t c d).displayRAM a =
      if c = 46 ∧ a = 0x03 + (t.digitPosition / 4 % 256) * 16
        then (t.displayRAM a ||| 0x01) % 256
      else if c = 58 ∧ a = 0x01 + (t.digitPosition / 4 % 256) * 16
        then (t.displayRAM a ||| 0x01) % 256
      else t.displayRAM a := by
  unfold printChar
  simp only
  rw [illuminateChar_odd _ _ _ _ ha]
  by_cases h46 : c = 46
  · subst h46
    have e1 : characterPosition 46 = 14 := by decide
    have e2 : ¬ characterPosition 46 = 26 := by decide
    simp only [e1, if_true, Nat.reduceEqDiff, if_false, true_and]
    rw [decimalOnSingle, setDecimalOnOff_displayRAM]
    simp only [if_true, false_and, if_false]
  · by_cases h58 : c = 58
    · subst h58
      have e1 : ¬ characterPosition 58 = 14 := by decide
      have e2 : characterPosition 58 = 26 := by decide
      simp only [e2, if_true, Nat.reduceEqDiff, if_false, true_and, false_and]
      rw [colonOnSingle, setColonOnOff_displayRAM]
      simp only [if_true, false_and, if_false]
    · have hne := characterPosition_ne_special h46 h58
      simp only [hne.1, hne.2, if_false, h46, h58, false_and]

theorem illuminateChar_high (t : Driver) (m d n a : Nat) (hd : d < 4 * n) (hn : n ≤ 4)
    (ha : 16 * n ≤ a) :
    (illuminateChar t m d).displayRAM a = t.displayRAM a := by
  have key : ∀ (l : List Nat), (∀ i ∈ l, i < 14) → ∀ (t : Driver),
      (l.foldl (fun acc i => if (m >>> i) &&& 1 ≠ 0
        then illuminateSegment acc ((65 + i) % 256) d else acc) t).displayRAM a
        = t.displayRAM a := by
    intro l
    induction l with
    | nil => intro _ t; rfl
    | cons i l ih =>
      intro hl t
      have hi : i < 14 := hl i (List.mem_cons_self _ _)
      rw [List.foldl_cons, ih (fun x hx => hl x (List.mem_cons_of_mem _ hx))]
      split_ifs
      · have hmod : (65 + i) % 256 = 65 + i := by omega
        have hc := segmentCom_le i hi
        have hT := target_closed i d hi (by omega)
        show (if a = (illuminateSegmentTarget ((65 + i) % 256) d).1 then _ else t.displayRAM a) = _
        rw [hmod, hT]
        simp only
        rw [if_neg (by omega)]
      · rfl
  exact key (List.range 14) (fun i hi => List.mem_range.1 hi) t

theorem printChar_high (t : Driver) (c d n a : Nat) (hd : d < 4 * n) (hn : n ≤ 4)
    (hp : c = 46 ∨ c = 58 → t.digitPosition < 4 * n) (ha : 16 * n ≤ a) :
    (printChar t c d).displayRAM a = t.displayRAM a := by
  unfold printChar
  simp only
  rw [illuminateChar_high _ _ d n a hd hn ha]
  by_cases h14 : characterPosition c = 14
  · have hc := characterPosition_eq_14 h14
    have hlt := hp (Or.inl hc)
    have h26 : ¬ characterPosition c = 26 := by rw [h14]; decide
    simp only [h14, if_true, Nat.reduceEqDiff, if_false]
    rw [decimalOnSingle, setDecimalOnOff_displayRAM]
    simp only
    rw [if_neg (by omega)]
  · by_cases h26 : characterPosition c = 26
    · have hc := characterPosition_eq_26 h26
      have hlt := hp (Or.inr hc)
      simp only [h26, if_true, Nat.reduceEqDiff, if_false]
      rw [colonOnSingle, setColonOnOff_displayRAM]
      simp only
      rw [if_neg (by omega)]
    · simp only [h14, h26, if_false]

theorem writeBufferStep_inv (t : Driver) (c : Nat)
    (hn : 1 ≤ t.numberOfDisplays ∧ t.numberOfDisplays ≤ 4)
    (hp : t.digitPosition < 4 * t.numberOfDisplays) :
    (writeBufferStep t c).numberOfDisplays = t.numberOfDisplays ∧
    (writeBufferStep t c).digitPosition < 4 * t.numberOfDisplays := by
  refine ⟨writeBufferStep_numberOfDisplays t c, ?_⟩
  rw [writeBufferStep_digitPosition]
  split_ifs
  · exact hp
  · have := Nat.mod_lt ((t.digitPosition + 1) % 256) (by omega : 0 < t.numberOfDisplays * 4)
    omega

theorem foldl_writeBufferStep_inv (buf : List Nat) (t : Driver)
    (hn : 1 ≤ t.numberOfDisplays ∧ t.numberOfDisplays ≤ 4)
    (hp : t.digitPosition < 4 * t.numberOfDisplays) :
    (buf.foldl writeBufferStep t).numberOfDisplays = t.numberOfDisplays ∧
    (buf.foldl writeBufferStep t).digitPosition < 4 * t.numberOfDisplays := by
  induction buf generalizing t with
  | nil => exact ⟨rfl, hp⟩
  | cons c buf ih =>
    obtain ⟨h1, h2⟩ := writeBufferStep_inv t c hn hp
    have := ih (writeBufferStep t c) (by rw [h1]; exact hn) (by rw [h1]; exact h2)
    rw [h1] at this
    exact this

theorem writeBufferStep_high (t : Driver) (c a : Nat)
    (hn : 1 ≤ t.numberOfDisplays ∧ t.numberOfDisplays ≤ 4)
    (hp : t.digitPosition < 4 * t.numberOfDisplays) (ha : 16 * t.numberOfDisplays ≤ a) :
    (writeBufferStep t c).displayRAM a = t.displayRAM a := by
  unfold writeBufferStep
  split_ifs
  · exact printChar_high t 46 0 _ a (by omega) hn.2 (fun _ => hp) ha
  · exact printChar_high t 58 0 _ a (by omega) hn.2 (fun _ => hp) ha
  · exact printChar_high t c _ _ a hp hn.2 (fun _ => hp) ha

theorem foldl_writeBufferStep_high (buf : List Nat) (t : Driver) (a : Nat)
    (hn : 1 ≤ t.numberOfDisplays ∧ t.numberOfDisplays ≤ 4)
    (hp : t.digitPosition < 4 * t.numberOfDisplays) (ha : 16 * t.numberOfDisplays ≤ a) :
    (buf.foldl writeBufferStep t).displayRAM a = t.displayRAM a := by
  induction buf generalizing t with
  | nil => rfl
  | cons c buf ih =>
    obtain ⟨h1, h2⟩ := writeBufferStep_inv t c hn hp
    rw [List.foldl_cons, ih (writeBufferStep t c) (by rw [h1]; exact hn)
      (by rw [h1]; exact h2) (by rw [h1]; exact ha), writeBufferStep_high t c a hn hp ha]

/-- C17: for every segment letter and every digit of the chain the byte offset
`illuminateSegment` computes is inside the RAM image and its 8-bit arithmetic
does not wrap. With the cursor on the chain, `write(b)` renders through
`printChar` with the digit 0 (for '.' and ':') or the cursor, both digits of the
chain; at the odd offsets it changes only the status byte `3 + 16 * (p / 4)`
(for '.') or `1 + 16 * (p / 4)` (for ':'), which lies inside the RAM image; and
it leaves every byte from offset `16 * numberOfDisplays` on unchanged. In
`write(buffer, size)` every pass starts with the cursor on the chain, renders
through `printChar` with the digit 0 or the cursor, changes at the odd offsets
only the status byte of the display the cursor is on, and the call leaves
every byte from offset `16 * numberOfDisplays` on unchanged. -/
theorem ram_indexing_in_image (s : Driver) (b : Nat) (buf : List Nat)
    (hn : 1 ≤ s.numberOfDisplays ∧ s.numberOfDisplays ≤ 4)
    (hp : s.digitPosition < 4 * s.numberOfDisplays) :
    (∀ segment digit, 65 ≤ segment → segment ≤ 78 → digit < 4 * s.numberOfDisplays →
      segmentCom segment * 2 + digit / 4 * 16 < 256 ∧
      (illuminateSegmentTarget segment digit).1 = segmentCom segment * 2 + digit / 4 * 16 ∧
      (illuminateSegmentTarget segment digit).1 < 16 * s.numberOfDisplays) ∧
    ((write s b).2.displayRAM =
        (printChar
          (if b = 46 ∨ b = 58 then s
            else { s with digitPosition := (s.digitPosition + 1) % 256 })
          b (if b = 46 ∨ b = 58 then 0 else s.digitPosition)).displayRAM ∧
      (if b = 46 ∨ b = 58 then 0 else s.digitPosition) < 4 * s.numberOfDisplays) ∧
    (∀ a, a % 2 = 1 →
      (write s b).2.displayRAM a =
        if b = 46 ∧ a = 3 + 16 * (s.digitPosition / 4) then (s.displayRAM a ||| 1) % 256
        else if b = 58 ∧ a = 1 + 16 * (s.digitPosition / 4) then (s.displayRAM a ||| 1) % 256
        else s.displayRAM a) ∧
    (3 + 16 * (s.digitPosition / 4) < 16 * s.numberOfDisplays ∧
      1 + 16 * (s.digitPosition / 4) < 16 * s.numberOfDisplays) ∧
    (∀ a, 16 * s.numberOfDisplays ≤ a → (write s b).2.displayRAM a = s.displayRAM a) ∧
    (∀ (t : Driver) (c : Nat),
      (writeBufferStep t c).displayRAM =
        (printChar t c (if c = 46 ∨ c = 58 then 0 else t.digitPosition)).displayRAM) ∧
    (∀ k,
      ((buf.take k).foldl writeBufferStep
        { zeroDisplayRAM s with digitPosition := 0 }).numberOfDisplays = s.numberOfDisplays ∧
      ((buf.take k).foldl writeBufferStep
        { zeroDisplayRAM s with digitPosition := 0 }).digitPosition < 4 * s.numberOfDisplays ∧
      3 + 16 * (((buf.take k).foldl writeBufferStep
        { zeroDisplayRAM s with digitPosition := 0 }).digitPosition / 4)
          < 16 * s.numberOfDisplays) ∧
    (∀ (t : Driver) (c a : Nat), a % 2 = 1 → t.digitPosition < 16 →
      (writeBufferStep t c).displayRAM a =
        if c = 46 ∧ a = 3 + 16 * (t.digitPosition / 4) then (t.displayRAM a ||| 1) % 256
        else if c = 58 ∧ a = 1 + 16 * (t.digitPosition / 4) then (t.displayRAM a ||| 1) % 256
        else t.displayRAM a) ∧
    (∀ a, 16 * s.numberOfDisplays ≤ a → (writeBuffer s buf).2.displayRAM a = s.displayRAM a) := by
  have hN : ({ zeroDisplayRAM s with digitPosition := 0 } : Driver).numberOfDisplays
      = s.numberOfDisplays := by rw [zeroDisplayRAM_eq]
  have hwrite : (write s b).2.displayRAM =
      (printChar
        (if b = 46 ∨ b = 58 then s
          else { s with digitPosition := (s.digitPosition + 1) % 256 })
        b (if b = 46 ∨ b = 58 then 0 else s.digitPosition)).displayRAM := by
    unfold write
    simp only
    rw [updateDisplay_frame (fun s => s.displayRAM) (fun _ _ => rfl)]
    by_cases h : b = 46 ∨ b = 58
    · simp only [if_pos h]
    · simp only [if_neg h]
  have hstep : ∀ (t : Driver) (c : Nat),
      (writeBufferStep t c).displayRAM =
        (printChar t c (if c = 46 ∨ c = 58 then 0 else t.digitPosition)).displayRAM := by
    intro t c
    unfold writeBufferStep
    by_cases h1 : c = 46
    · subst h1; simp
    · by_cases h2 : c = 58
      · subst h2; simp
      · simp [h1, h2]
  have hodd : ∀ (t : Driver) (c d a : Nat), a % 2 = 1 → t.digitPosition < 16 →
      (printChar t c d).displayRAM a =
        if c = 46 ∧ a = 3 + 16 * (t.digitPosition / 4) then (t.displayRAM a ||| 1) % 256
        else if c = 58 ∧ a = 1 + 16 * (t.digitPosition / 4) then (t.displayRAM a ||| 1) % 256
        else t.displayRAM a := by
    intro t c d a ha ht
    rw [printChar_odd t c d a ha]
    have e1 : (a = 0x03 + (t.digitPosition / 4 % 256) * 16) ↔ a = 3 + 16 * (t.digitPosition / 4) := by
      omega
    have e2 : (a = 0x01 + (t.digitPosition / 4 % 256) * 16) ↔ a = 1 + 16 * (t.digitPosition / 4) := by
      omega
    simp only [e1, e2]
  refine ⟨?_, ⟨hwrite, ?_⟩, ?_, ⟨by omega, by omega⟩, ?_, hstep, ?_, ?_, ?_⟩
  · intro segment digit h1 h2 hd
    obtain ⟨i, rfl⟩ : ∃ i, segment = 65 + i := ⟨segment - 65, by omega⟩
    have hi : i < 14 := by omega
    have hc := segmentCom_le i hi
    rw [target_closed i digit hi (by omega)]
    simp only
    omega
  · split_ifs
    · omega
    · exact hp
  · intro a ha
    rw [hwrite]
    by_cases h : b = 46 ∨ b = 58
    · simp only [if_pos h]
      exact hodd s b 0 a ha (by omega)
    · simp only [if_neg h]
      have h1 : ¬ b = 46 := fun e => h (Or.inl e)
      have h2 : ¬ b = 58 := fun e => h (Or.inr e)
      rw [printChar_odd _ b _ a ha]
      simp only [h1, h2, false_and, if_false]
  · intro a ha
    rw [hwrite]
    by_cases h : b = 46 ∨ b = 58
    · simp only [if_pos h]
      exact printChar_high s b 0 _ a (by omega) hn.2 (fun _ => hp) ha
    · simp only [if_neg h]
      exact printChar_high _ b _ _ a hp hn.2 (fun hs => absurd hs h) ha
  · intro k
    obtain ⟨h1, h2⟩ := foldl_writeBufferStep_inv (buf.take k)
      { zeroDisplayRAM s with digitPosition := 0 } (by rw [hN]; exact hn)
      (by rw [hN]; show 0 < _; omega)
    rw [hN] at h1 h2
    exact ⟨h1, h2, by omega⟩
  · intro t c a ha ht
    rw [hstep]
    exact hodd t c _ a ha ht
  · intro a ha
    have h1 : (writeBuffer s buf).2.displayRAM
        = (buf.foldl writeBufferStep { zeroDisplayRAM s with digitPosition := 0 }).displayRAM :=
      updateDisplay_frame (fun s => s.displayRAM) (fun _ _ => rfl) _
    rw [h1, foldl_writeBufferStep_high buf _ a (by rw [hN]; exact hn)
      (by rw [hN]; show 0 < _; omega) (by rw [hN]; exact ha), zeroDisplayRAM_eq]
    simp only
    rw [if_neg (by omega)]

/-- C17, an instance: the sample driver, the byte '.' and the buffer "A.B:CDE". -/
theorem ram_indexing_in_image_witness :
    (write fresh 46).2.displayRAM 3 = (fresh.displayRAM 3 ||| 1) % 256 ∧
    (∀ a, 16 * fresh.numberOfDisplays ≤ a →
      (write fresh 46).2.displayRAM a = fresh.displayRAM a) ∧
    (∀ k, ((List.take k [65, 46, 66, 58, 67, 68, 69]).foldl writeBufferStep
        { zeroDisplayRAM fresh with digitPosition := 0 }).digitPosition
          < 4 * fresh.numberOfDisplays) ∧
    (∀ a, 16 * fresh.numberOfDisplays ≤ a →
      (writeBuffer fresh [65, 46, 66, 58, 67, 68, 69]).2.displayRAM a = fresh.displayRAM a) :=
  have h := ram_indexing_in_image fresh 46 [65, 46, 66, 58, 67, 68, 69] (by decide) (by decide)
  ⟨(h.2.2.1 3 (by decide)).trans (by decide), h.2.2.2.2.1,
    fun k => (h.2.2.2.2.2.2.1 k).2.1, h.2.2.2.2.2.2.2.2⟩

end HT16K33
